import Mathlib

/-!
Verification of the SEC EDGAR ingestion pipeline
(`utils/populate_daily_values.py`, `utils/sec_edgar_api.py` and the ORM
models under `models/`).

The Python code is shallowly embedded: pure helpers become Lean functions
on `String` / `List Char` / `Int`; JSON payloads become the inductive
`JVal`; the SQLite tables touched by the pipeline become explicit list
states; the per-file loop of `_run` becomes a fold over an explicit
database state.  Machine-level caveats of the embedding are noted on each
definition.  Python `str` is modelled over ASCII: `str.strip`/`lower`/
`upper`/`isdigit` are given their ASCII semantics, and `int(str)` is
modelled for plain decimal strings (no underscore separators, no
non-ASCII digits), which covers every value the pipeline feeds to them.
-/

namespace Sec

/-! ## Python string primitives -/

/-- Python default whitespace for `str.strip()` (ASCII subset). -/
def isPySpace (c : Char) : Bool :=
  c = ' ' || c = '\t' || c = '\n' || c = '\r' || c.toNat = 11 || c.toNat = 12

/-- `str.strip()` on the character list: drop whitespace from both ends. -/
def stripChars (l : List Char) : List Char :=
  ((l.dropWhile isPySpace).reverse.dropWhile isPySpace).reverse

/-- `str.strip()` on a `String`. -/
def pyStrip (s : String) : String := String.mk (stripChars s.data)

/-- The character for a decimal digit `d < 10` (total: clamps at `'9'`). -/
def digitChar (d : Nat) : Char :=
  match d with
  | 0 => '0' | 1 => '1' | 2 => '2' | 3 => '3' | 4 => '4'
  | 5 => '5' | 6 => '6' | 7 => '7' | 8 => '8' | _ => '9'

/-- Numeric value of a digit character. -/
def digitVal (c : Char) : Nat := c.toNat - 48

/-- Little-endian decimal digits of `n`, fuel-powered so it is structural
and kernel-reducible.  `natDigitsRevGo fuel m` is correct when `m < fuel`. -/
def natDigitsRevGo : Nat → Nat → List Char
  | 0, _ => []
  | fuel + 1, m =>
    if m < 10 then [digitChar m]
    else digitChar (m % 10) :: natDigitsRevGo fuel (m / 10)

/-- Little-endian decimal digits of `n`. -/
def natDigitsRev (n : Nat) : List Char := natDigitsRevGo (n + 1) n

/-- Python `str(n)` for a natural number. -/
def pyStrNat (n : Nat) : String := String.mk (natDigitsRev n).reverse

/-- Python `str(n)` for an `int`: canonical decimal, `-` sign for negatives. -/
def pyStrInt (n : Int) : String :=
  if n < 0 then String.mk ('-' :: (natDigitsRev n.natAbs).reverse)
  else String.mk (natDigitsRev n.toNat).reverse

/-- Value of a big-endian digit-character list (`foldl`, as a left-to-right scan). -/
def decValue (l : List Char) : Nat := l.foldl (fun a c => a * 10 + digitVal c) 0

/-- Value of a little-endian digit-character list. -/
def valRev : List Char → Nat
  | [] => 0
  | c :: t => digitVal c + 10 * valRev t

/-- Python `str.isdigit()` for one character (ASCII form, equivalent to
`Char.isDigit`): code point between `'0'` (48) and `'9'` (57). -/
def isAsciiDigit (c : Char) : Bool := 48 ≤ c.toNat && c.toNat ≤ 57

/-- All characters are ASCII decimal digits. -/
def isDigitList (l : List Char) : Bool := l.all isAsciiDigit

/-- Python `int(s)` on a string: strip whitespace, optional single sign,
then a nonempty run of decimal digits; anything else raises (`none`).
Modelled for ASCII decimal strings (no `_` separators). -/
def pyIntOfString (s : String) : Option Int :=
  match stripChars s.data with
  | [] => none
  | c :: rest =>
    if c = '-' then
      if rest.isEmpty then none
      else if isDigitList rest then some (-(decValue rest : Int)) else none
    else if c = '+' then
      if rest.isEmpty then none
      else if isDigitList rest then some ((decValue rest : Int)) else none
    else if isDigitList (c :: rest) then some ((decValue (c :: rest) : Int))
    else none

/-- Python `str.zfill(w)`: left-pad with `'0'` to width `w`, keeping a
leading sign in place. -/
def zfill (s : String) (w : Nat) : String :=
  if w ≤ s.length then s
  else
    match s.data with
    | [] => String.mk (List.replicate w '0')
    | c :: rest =>
      if c = '-' ∨ c = '+' then
        String.mk (c :: (List.replicate (w - s.length) '0' ++ rest))
      else String.mk (List.replicate (w - s.length) '0' ++ (c :: rest))

/-- Python `s[:n]` on a string. -/
def strTake (s : String) (n : Nat) : String := String.mk (s.data.take n)

/-- Python `str.lower()` (ASCII). -/
def pyLower (s : String) : String := String.mk (s.data.map Char.toLower)

/-- Python `str.upper()` (ASCII). -/
def pyUpper (s : String) : String := String.mk (s.data.map Char.toUpper)

/-! ## CIK normalization (`_normalize_cik`, populate_daily_values.py 697-714) -/

/-- A Python value fed to `_normalize_cik`: `None`, an `int`, or a `str`
(the docstring's accepted inputs). -/
inductive PyVal where
  | pyNone
  | pyInt (n : Int)
  | pyStr (s : String)
deriving DecidableEq

/-- The string branch of `_normalize_cik`: `try: str(int(raw)).zfill(10)`,
on failure strip, drop a leading `"CIK"`, keep the digit characters and
zero-fill to ten. -/
def normalizeCikStr (raw : String) : Option String :=
  match pyIntOfString raw with
  | some n => some (zfill (pyStrInt n) 10)
  | none =>
    let s := stripChars raw.data
    if s.isEmpty then none
    else
      let s2 := if s.take 3 = ['C', 'I', 'K'] then s.drop 3 else s
      let digits := s2.filter isAsciiDigit
      if digits.isEmpty then none else some (zfill (String.mk digits) 10)

/-- `_normalize_cik`.  `int(raw)` never raises on an `int`, so the except
branch is only reachable for strings. -/
def normalizeCik : PyVal → Option String
  | .pyNone => none
  | .pyInt n => some (zfill (pyStrInt n) 10)
  | .pyStr s => normalizeCikStr s

/-! ## Identifier schemes (`_scheme_alias`, `_normalize_identifier_value`,
`_get_or_create_entity_identifier`, populate_daily_values.py 351-418) -/

/-- `_scheme_alias`: map aliases onto canonical scheme names.  The code
only aliases the CIK and LEI families; everything else passes through
lower-cased and trimmed. -/
def schemeAlias (scheme : String) : String :=
  let s := pyLower (pyStrip scheme)
  if s = "cik" ∨ s = "sec" ∨ s = "sec-cik" ∨ s = "sec_cik" then "sec_cik"
  else if s = "lei" ∨ s = "gleif" ∨ s = "gleif-lei" ∨ s = "gleif_lei" then "gleif_lei"
  else s

/-- `_normalize_identifier_value`: trim; CIK schemes go through
`_normalize_cik` (falling back to the trimmed value), LEI schemes are
upper-cased, and the default branch trims only. -/
def normalizeIdentifierValue (scheme : String) (value : String) : String :=
  let v := pyStrip value
  if v = "" then v
  else
    let schemeL := pyLower (pyStrip scheme)
    if schemeL = "sec_cik" ∨ schemeL = "cik" then
      match normalizeCikStr v with
      | some n => n
      | none => v
    else if schemeL = "gleif_lei" ∨ schemeL = "lei" then pyUpper v
    else v

/-- A row of the `entity_identifiers` table (models/entity_identifiers.py);
`(scheme, value)` carries a unique constraint. -/
structure EntityIdentifierRow where
  entityId : Nat
  scheme : String
  value : String
  country : Option String
  issuer : Option String
deriving DecidableEq

/-- `_get_or_create_entity_identifier`: normalize, look up the first row
with the normalized `(scheme, value)`; a hit owned by a different entity
raises `IntegrityError` (modelled as `Except.error`, the transaction is
left untouched), a hit owned by the same entity is returned, and a miss
appends a fresh row. -/
def getOrCreateEntityIdentifier (table : List EntityIdentifierRow)
    (entityId : Nat) (scheme value : String)
    (country issuer : Option String) :
    Except String (EntityIdentifierRow × List EntityIdentifierRow) :=
  let schemeN := schemeAlias scheme
  let valueN := normalizeIdentifierValue schemeN value
  match table.find? (fun r => r.scheme == schemeN && r.value == valueN) with
  | some existing =>
    if existing.entityId ≠ entityId then
      .error ("Identifier conflict: " ++ schemeN ++ ":" ++ valueN ++
        " already belongs to entity_id=" ++ pyStrNat existing.entityId)
    else .ok (existing, table)
  | none =>
    let ident : EntityIdentifierRow :=
      ⟨entityId, schemeN, valueN, country, issuer⟩
    .ok (ident, table ++ [ident])

/-! ## File sharding (`_chunked_files`, populate_daily_values.py 259-271,
and `_split_into_chunks`, 1536-1545) -/

/-- A discovered file: `(source_folder_name, absolute_path, filename)`. -/
abbrev SrcFile := String × String × String

/-- `_chunked_files`: with one worker the whole list is returned; an
out-of-range worker index raises `ValueError`; otherwise keep the entries
whose list position is congruent to `workerIndex` modulo `workers`.
(`worker_index < 0` is impossible for `Nat`.) -/
def chunkedFiles (files : List SrcFile) (workers : Nat) (workerIndex : Nat) :
    Except String (List SrcFile) :=
  if workers ≤ 1 then .ok files
  else if workerIndex ≥ workers then .error "worker_index must be in [0, workers)"
  else .ok (((files.enum.filter (fun p => p.1 % workers == workerIndex)).map Prod.snd))

/-- The shard of `files` owned by `workerIndex`, in the filtered-`enum`
form used for analysing `chunkedFiles`. -/
def enumShard (files : List SrcFile) (workers : Nat) (workerIndex : Nat) :
    List (Nat × SrcFile) :=
  files.enum.filter (fun p => p.1 % workers == workerIndex)

/-- The value-level shard (positions dropped). -/
def shardForm (files : List SrcFile) (workers : Nat) (workerIndex : Nat) :
    List SrcFile :=
  (enumShard files workers workerIndex).map Prod.snd

/-! ## JSON values

The payloads the pipeline reads are `json.load`ed Python values: `None`,
booleans, numbers, strings, lists and (insertion-ordered) dicts.  Floats
are not modelled (no claim depends on float arithmetic or formatting);
numbers are `Int`. -/

inductive JVal where
  | jnull
  | jbool (b : Bool)
  | jint (n : Int)
  | jstr (s : String)
  | jlist (xs : List JVal)
  | jdict (kvs : List (String × JVal))

/-- `d.get(k)` on a dict body: first binding wins (Python dict keys are
unique, so the first binding is the binding). -/
def dictGet (kvs : List (String × JVal)) (k : String) : Option JVal :=
  (kvs.find? (fun p => p.1 == k)).map Prod.snd

/-- `data.get(k)` on an arbitrary value (non-dicts have no keys). -/
def jget (v : JVal) (k : String) : Option JVal :=
  match v with
  | .jdict kvs => dictGet kvs k
  | _ => none

/-- Python truthiness of a JSON value. -/
def truthy : JVal → Bool
  | .jnull => false
  | .jbool b => b
  | .jint n => n != 0
  | .jstr s => s != ""
  | .jlist xs => !xs.isEmpty
  | .jdict kvs => !kvs.isEmpty

/-- Truthiness of `d.get(k)` (a missing key is `None`, hence falsy). -/
def optTruthy : Option JVal → Bool
  | none => false
  | some v => truthy v

/-- `_is_nonempty_dict`. -/
def isNonemptyDict : JVal → Bool
  | .jdict kvs => !kvs.isEmpty
  | _ => false

/-- Lower-case hex digit (for JSON control-character escapes). -/
def hexDigit (d : Nat) : Char :=
  if d < 10 then digitChar d
  else match d with
    | 10 => 'a' | 11 => 'b' | 12 => 'c' | 13 => 'd' | 14 => 'e' | _ => 'f'

/-- JSON escaping of one character (`json.dumps` with `ensure_ascii=False`:
quote, backslash and control characters are escaped, everything else is
emitted as-is). -/
def jsonEscapeChar (c : Char) : String :=
  if c = '"' then "\\\""
  else if c = '\\' then "\\\\"
  else if c = '\n' then "\\n"
  else if c = '\r' then "\\r"
  else if c = '\t' then "\\t"
  else if c.toNat = 8 then "\\b"
  else if c.toNat = 12 then "\\f"
  else if c.toNat < 32 then
    "\\u00" ++ String.mk [hexDigit (c.toNat / 16), hexDigit (c.toNat % 16)]
  else String.singleton c

/-- JSON escaping of a string body. -/
def jsonEscape (s : String) : String :=
  String.join (s.data.map jsonEscapeChar)

/-- `", ".join`-style separator interleaving. -/
def joinSep (sep : String) : List String → String
  | [] => ""
  | [x] => x
  | x :: y :: t => x ++ sep ++ joinSep sep (y :: t)

/-- `json.dumps(v, ensure_ascii=False)` with the default separators
`", "` and `": "`. -/
def jsonDumps : JVal → String
  | .jnull => "null"
  | .jbool b => if b then "true" else "false"
  | .jint n => pyStrInt n
  | .jstr s => "\"" ++ jsonEscape s ++ "\""
  | .jlist xs =>
    "[" ++ joinSep ", " (xs.attach.map (fun x => jsonDumps x.1)) ++ "]"
  | .jdict kvs =>
    "\x7b" ++
      joinSep ", " (kvs.attach.map (fun p =>
        "\"" ++ jsonEscape p.1.1 ++ "\": " ++ jsonDumps p.1.2)) ++ "\x7d"
  termination_by v => sizeOf v
  decreasing_by
  · have := List.sizeOf_lt_of_mem x.2
    simp only [JVal.jlist.sizeOf_spec]
    omega
  · have h1 := List.sizeOf_lt_of_mem p.2
    have h2 : sizeOf p.1.2 < sizeOf p.1 := by
      obtain ⟨k, v⟩ := p.1
      simp only [Prod.mk.sizeOf_spec]
      omega
    simp only [JVal.jdict.sizeOf_spec]
    omega

/-- `_safe_str` (populate_daily_values.py 274-286): `None` becomes `""`,
`str`/`int`/`bool` go through `str()`, lists and dicts through
`json.dumps`, and the result is truncated to `maxLen` characters. -/
def safeStrMax (maxLen : Nat) : JVal → String
  | .jnull => ""
  | .jstr s => strTake s maxLen
  | .jint n => strTake (pyStrInt n) maxLen
  | .jbool b => strTake (if b then "True" else "False") maxLen
  | .jlist xs => strTake (jsonDumps (.jlist xs)) maxLen
  | .jdict kvs => strTake (jsonDumps (.jdict kvs)) maxLen

/-- `_safe_str` at its default `max_len=4000`, as every caller uses it. -/
def safeStr (v : JVal) : String := safeStrMax 4000 v

/-! ## The `daily_values` fact table

`models/daily_values.py`: rows are `(entity_id, date_id, value_name_id,
value)` with a unique constraint on the id triple
(`uq_daily_values_entity_date_value`). -/

structure DVRow where
  entityId : Nat
  dateId : Nat
  valueNameId : Nat
  value : String
deriving DecidableEq

/-- Two rows collide on the `(entity_id, date_id, value_name_id)` unique
constraint. -/
def DVRow.sameKey (a b : DVRow) : Bool :=
  a.entityId == b.entityId && a.dateId == b.dateId &&
    a.valueNameId == b.valueNameId

/-- One-row `INSERT OR IGNORE` into `daily_values`: a row whose key triple
is already present is dropped (rowcount 0), otherwise it is appended
(rowcount 1).  Mirrors `_insert_daily_value_ignore`. -/
def insertIgnore (facts : List DVRow) (r : DVRow) : List DVRow × Nat :=
  if facts.any (fun x => x.sameKey r) then (facts, 0)
  else (facts ++ [r], 1)

/-- `_insert_daily_values_ignore_bulk`: rows are inserted in order with
`OR IGNORE`, returning the count actually inserted.  The Python code
chunks the statement to stay under SQLite's bound-parameter limit; the
chunking does not change which rows land, so the model folds row by
row. -/
def insertIgnoreBulk (facts : List DVRow) (rows : List DVRow) :
    List DVRow × Nat :=
  rows.foldl (fun acc r =>
    let step := insertIgnore acc.1 r
    (step.1, acc.2 + step.2)) (facts, 0)

/-! ## Flattening companyfacts (populate_daily_values.py 906-933, 974-1018) -/

/-- The point entries of one `units` bucket: each dict point with a truthy
`end` yields `(value_name, unit, end, val)` (a missing `val` is `None`). -/
def pointEntries (valueName unitName : String) (points : List JVal) :
    List (String × String × JVal × JVal) :=
  points.filterMap (fun p =>
    match p with
    | .jdict kv =>
      let e := dictGet kv "end"
      if optTruthy e then
        some (valueName, unitName, e.getD .jnull, (dictGet kv "val").getD .jnull)
      else none
    | _ => none)

/-- `iter_companyfacts_points`: walk
`facts -> namespace -> metric -> units -> [points]`; metrics whose
`units` is not a nonempty dict are skipped. -/
def iterCompanyfactsPoints (facts : JVal) : List (String × String × JVal × JVal) :=
  match facts with
  | .jdict nss =>
    nss.flatMap (fun nsp =>
      match nsp.2 with
      | .jdict ms =>
        ms.flatMap (fun mp =>
          match mp.2 with
          | .jdict mkv =>
            match dictGet mkv "units" with
            | some (.jdict units) =>
              if units.isEmpty then []
              else
                units.flatMap (fun up =>
                  match up.2 with
                  | .jlist points => pointEntries (nsp.1 ++ "." ++ mp.1) up.1 points
                  | _ => [])
            | _ => []
          | _ => [])
      | _ => [])
  | _ => []

/-- The unit-name normalization done by `_run`'s `get_unit_id_cached`
(and by `get_or_create_unit` itself): `(unit_name or "NA").strip() or
"NA"`, then resolve through the units table (modelled as the resolved
name-to-id map of the get-or-create cache). -/
def getUnitIdCached (unitTable : String → Nat) (unitName : String) : Nat :=
  let k0 := if unitName = "" then "NA" else unitName
  let k1 := pyStrip k0
  let k := if k1 = "" then "NA" else k1
  unitTable k

/-- `process_companyfacts_file`, row-building part: points whose `end`
fails date resolution are skipped (`if not date_id: continue`; a zero id
is falsy in Python), the rest become `daily_values` rows carrying
`_safe_str(val)`.  The getter callbacks are parameters exactly as in the
Python signature. -/
def processCompanyfactsRows (getUnitId : String → Nat)
    (getValueNameId : String → Option Nat → Nat)
    (getDateId : JVal → Option Nat) (entityId : Nat) (data : JVal) :
    List DVRow :=
  match jget data "facts" with
  | some facts =>
    if isNonemptyDict facts then
      (iterCompanyfactsPoints facts).filterMap (fun q =>
        match getDateId q.2.2.1 with
        | none => none
        | some dateId =>
          if dateId == 0 then none
          else
            let unitId := getUnitId q.2.1
            let vnId := getValueNameId q.1 (some unitId)
            some ⟨entityId, dateId, vnId, safeStr q.2.2.2⟩)
    else []
  | none => []

/-- `process_companyfacts_file` including the bulk insert: returns the new
table, `inserts_planned` and `duplicates_skipped` (Nat subtraction is the
`max(..., 0)` of the source). -/
def processCompanyfactsFile (getUnitId : String → Nat)
    (getValueNameId : String → Option Nat → Nat)
    (getDateId : JVal → Option Nat) (entityId : Nat) (data : JVal)
    (facts0 : List DVRow) : List DVRow × Nat × Nat :=
  let rows := processCompanyfactsRows getUnitId getValueNameId getDateId entityId data
  let ins := insertIgnoreBulk facts0 rows
  (ins.1, rows.length, rows.length - ins.2)

/-! ## Flattening submissions (populate_daily_values.py 882-903, 936-971,
1021-1080) -/

/-- `_resolve_recent_payload`: the full shape (`filings.recent` a dict),
the flattened recent shape (no `filings` key, a `filingDate` list and an
`accessionNumber`/`form` key), or unknown. -/
def resolveRecentPayload (data : JVal) : String × Option (List (String × JVal)) :=
  match data with
  | .jdict kvs =>
    let flattened :=
      (dictGet kvs "filings").isNone &&
        (match dictGet kvs "filingDate" with
         | some (.jlist _) => true
         | _ => false) &&
        ((dictGet kvs "accessionNumber").isSome || (dictGet kvs "form").isSome)
    let fallback : String × Option (List (String × JVal)) :=
      if flattened then ("flattened_recent", some kvs) else ("unknown", none)
    match dictGet kvs "filings" with
    | some (.jdict fkvs) =>
      match dictGet fkvs "recent" with
      | some (.jdict rkvs) => ("full_submissions", some rkvs)
      | _ => fallback
    | _ => fallback
  | _ => ("non_dict", none)

/-- `recent.get(k) if isinstance(recent.get(k), list) else []`. -/
def listFieldOf (recent : List (String × JVal)) (k : String) : List JVal :=
  match dictGet recent k with
  | some (.jlist l) => l
  | _ => []

/-- `_date_for_index`'s lookup in one array: the entry at `i` if present
and truthy. -/
def pickDate (dates : List JVal) (i : Nat) : Option JVal :=
  match dates.get? i with
  | some d => if truthy d then some d else none
  | none => none

/-- `iter_submissions_recent_points`: every non-list value and the two
date arrays themselves are skipped; each remaining array entry is paired
with its index-aligned filing date (falling back to the report date), or
`none` when both are missing/falsy. -/
def iterSubmissionsRecentPoints (recent : List (String × JVal)) :
    List (String × String × Option JVal × JVal) :=
  if recent.isEmpty then []
  else
    let filingDates := listFieldOf recent "filingDate"
    let reportDates := listFieldOf recent "reportDate"
    recent.flatMap (fun kv =>
      match kv.2 with
      | .jlist xs =>
        if kv.1 == "filingDate" || kv.1 == "reportDate" then []
        else
          xs.enum.map (fun iv =>
            ("submissions.recent." ++ kv.1, "NA",
              (pickDate filingDates iv.1).orElse (fun _ => pickDate reportDates iv.1),
              iv.2))
      | _ => [])

/-- `process_submissions_file`, row-building part: returns
`(schema, rows, unprocessed_reason_or_none)`.  A payload without a
resolvable nonempty `recent` dict is `unknown_submissions_schema`; one
whose `filingDate` and `reportDate` are both missing/non-list/empty is
`submissions_missing_dates` and builds no rows. -/
def processSubmissionsRows (getUnitId : String → Nat)
    (getValueNameId : String → Option Nat → Nat)
    (getDateId : JVal → Option Nat) (entityId : Nat) (data : JVal) :
    String × List DVRow × Option String :=
  let res := resolveRecentPayload data
  match res.2 with
  | none => (res.1, [], some "unknown_submissions_schema")
  | some recent =>
    if recent.isEmpty then (res.1, [], some "unknown_submissions_schema")
    else
      let filingDates := listFieldOf recent "filingDate"
      let reportDates := listFieldOf recent "reportDate"
      if filingDates.isEmpty && reportDates.isEmpty then
        (res.1, [], some "submissions_missing_dates")
      else
        let naUnitId := getUnitId "NA"
        let rows := (iterSubmissionsRecentPoints recent).filterMap (fun q =>
          match q.2.2.1 with
          | none => none
          | some d =>
            match getDateId d with
            | none => none
            | some dateId =>
              if dateId == 0 then none
              else
                some ⟨entityId, dateId, getValueNameId q.1 (some naUnitId),
                  safeStr q.2.2.2⟩)
        (res.1, rows, none)

/-- `process_submissions_file` including the bulk insert: returns the new
table and `(schema, planned, duplicates, reason)`. -/
def processSubmissionsFile (getUnitId : String → Nat)
    (getValueNameId : String → Option Nat → Nat)
    (getDateId : JVal → Option Nat) (entityId : Nat) (data : JVal)
    (facts0 : List DVRow) : List DVRow × String × Nat × Nat × Option String :=
  let res := processSubmissionsRows getUnitId getValueNameId getDateId entityId data
  match res.2.2 with
  | some r => (facts0, res.1, 0, 0, some r)
  | none =>
    let ins := insertIgnoreBulk facts0 res.2.1
    (ins.1, res.1, res.2.1.length, res.2.1.length - ins.2, none)

/-! ## The per-worker run loop (`_run`, populate_daily_values.py 1208-1507)

The model keeps the state `_run` manipulates: the `daily_values` table,
the `FileProcessing` key set (`source_file` values, as loaded by
`_load_processed_file_keys` and extended after each commit), the rows
actually inserted, the files whose contents were read, and the recorded
skip reasons.  A file's effect is abstracted to its `FileOutcome`: either
it is logged unprocessed with a reason and `continue`d before
`_mark_file_processed` (no rows, no marker), or it yields a row batch
that is bulk-inserted and committed together with the marker.  The
per-file commit is the `commitOk` oracle: a failed commit rolls the
file's inserts and marker back and the loop continues. -/

inductive FileOutcome where
  | skipped (reason : String)
  | rows (rs : List DVRow)

/-- A file as `_run` sees it: its `FileProcessing` key
(`_source_file_key source rel_path`), the resolved entity, and what
processing it would yield. -/
structure IngestFile where
  key : String
  entityId : Nat
  outcome : FileOutcome

/-- The store state a worker sees. -/
structure DBState where
  facts : List DVRow
  processed : List String
deriving DecidableEq

/-- Accumulated result of a worker run. -/
structure RunResult where
  db : DBState
  inserted : Nat
  reads : List String
  skipReasons : List String
deriving DecidableEq

/-- One iteration of `_run`'s file loop (lines 1316-1480): an
already-marked key is skipped before the file is opened; a skip-reason
file is read, logged and left unmarked; otherwise the row batch and the
marker commit atomically when the commit succeeds, and roll back when it
fails. -/
def stepFile (commitOk : String → Bool) (acc : RunResult) (f : IngestFile) :
    RunResult :=
  if f.key ∈ acc.db.processed then acc
  else
    match f.outcome with
    | .skipped r =>
      { acc with reads := acc.reads ++ [f.key],
                 skipReasons := acc.skipReasons ++ [r] }
    | .rows rs =>
      if commitOk f.key then
        let ins := insertIgnoreBulk acc.db.facts rs
        { db := ⟨ins.1, acc.db.processed ++ [f.key]⟩,
          inserted := acc.inserted + ins.2,
          reads := acc.reads ++ [f.key],
          skipReasons := acc.skipReasons }
      else { acc with reads := acc.reads ++ [f.key] }

/-- A whole worker run over its file shard. -/
def runIngest (commitOk : String → Bool) (db : DBState)
    (files : List IngestFile) : RunResult :=
  files.foldl (stepFile commitOk) ⟨db, 0, [], []⟩

/-- The `elif source == "submissions"` dispatch of `_run` (lines
1405-1428): an unprocessed reason becomes a logged skip, otherwise the
file contributes its row batch. -/
def submissionsFileOutcome (getUnitId : String → Nat)
    (getValueNameId : String → Option Nat → Nat)
    (getDateId : JVal → Option Nat) (entityId : Nat) (data : JVal) :
    FileOutcome :=
  let res := processSubmissionsRows getUnitId getValueNameId getDateId entityId data
  match res.2.2 with
  | some r => .skipped r
  | none => .rows res.2.1

/-! ## The SEC HTTP client (`utils/sec_edgar_api.py` 134-242)

`_request` is a retry loop around a transport.  The transport is an
oracle mapping the attempt index to what `s.get` did: raise, or return a
response with a status code and an optional `Retry-After` header.  The
`time.sleep` calls are recorded as actions; backoff delays are exact
rationals (0.5, 1, 2, ... are exactly representable floats, so `ℚ` is a
faithful model of the float arithmetic in `_sleep_backoff`). -/

inductive AttemptResult where
  | exc (e : String)
  | resp (status : Nat) (retryAfter : Option String)

/-- A recorded `time.sleep`: either the parsed `Retry-After` seconds or an
exponential-backoff delay. -/
inductive SleepAction where
  | raSleep (secs : Int)
  | boSleep (delay : ℚ)
deriving DecidableEq

/-- `_parse_retry_after_seconds`: `None`/empty/blank gives `None`,
otherwise `float(int(v))` of the stripped value, `None` on parse failure.
(The `float` wrapper is the identity on the integers involved.) -/
def parseRetryAfterSeconds (value : Option String) : Option Int :=
  match value with
  | none => none
  | some s =>
    if s = "" then none
    else
      let v := pyStrip s
      if v = "" then none else pyIntOfString v

/-- `_sleep_backoff`'s delay: `min(0.5 * 2 ** attempt_index, 8.0)`. -/
def backoffDelay (attemptIndex : Nat) : ℚ :=
  min ((1 / 2 : ℚ) * 2 ^ attemptIndex) 8

/-- Statuses `_request` treats as retryable: `(429, 500, 502, 503, 504)`. -/
def retryableStatus (st : Nat) : Bool :=
  st == 429 || st == 500 || st == 502 || st == 503 || st == 504

/-- `200 <= status < 300`. -/
def is2xx (st : Nat) : Bool := 200 ≤ st && st < 300

/-- An attempt outcome that takes the retry path: a transport exception,
or a retryable non-2xx response. -/
def retryableAttempt : AttemptResult → Bool
  | .exc _ => true
  | .resp st _ => !is2xx st && retryableStatus st

/-- An attempt outcome that is a 2xx response. -/
def successAttempt : AttemptResult → Bool
  | .exc _ => false
  | .resp st _ => is2xx st

/-- The sleep `_request` performs after retrying attempt `i`: the parsed
`Retry-After` when the attempt produced a response with a parseable
header, otherwise `_sleep_backoff(i)` (always backoff for exceptions). -/
def expectedSleep (a : AttemptResult) (i : Nat) : SleepAction :=
  match a with
  | .exc _ => .boSleep (backoffDelay i)
  | .resp _ ra =>
    match parseRetryAfterSeconds ra with
    | some k => .raSleep k
    | none => .boSleep (backoffDelay i)

/-- The body of `_request`'s `for attempt in range(max_attempts)` loop,
structurally recursive on the remaining iteration count (`remaining`
equals `maxAttempts - attempt` at every call).  Returns the result
(`.ok status` for a 2xx response, `.error msg` for a raise) and the list
of sleeps performed.  The `remaining = 0` case is the unreachable
fall-through after the loop. -/
def secRequestGo (oracle : Nat → AttemptResult) (maxAttempts : Nat) :
    Nat → Nat → Except String Nat × List SleepAction
  | 0, _ => (.error "SEC request failed", [])
  | remaining + 1, attempt =>
    match oracle attempt with
    | .exc e =>
      if attempt < maxAttempts - 1 then
        let rec_ := secRequestGo oracle maxAttempts remaining (attempt + 1)
        (rec_.1, .boSleep (backoffDelay attempt) :: rec_.2)
      else (.error e, [])
    | .resp st ra =>
      if is2xx st then (.ok st, [])
      else if retryableStatus st && attempt < maxAttempts - 1 then
        let sl :=
          match parseRetryAfterSeconds ra with
          | some k => SleepAction.raSleep k
          | none => SleepAction.boSleep (backoffDelay attempt)
        let rec_ := secRequestGo oracle maxAttempts remaining (attempt + 1)
        (rec_.1, sl :: rec_.2)
      else (.error ("SEC request failed status=" ++ pyStrNat st), [])

/-- `_request`: `max_attempts <= 0` raises `ValueError` up front, then the
loop runs attempts `0 .. maxAttempts - 1`. -/
def secRequest (oracle : Nat → AttemptResult) (maxAttempts : Nat) :
    Except String Nat × List SleepAction :=
  if maxAttempts = 0 then (.error "max_attempts must be >= 1", [])
  else secRequestGo oracle maxAttempts maxAttempts 0

/-! # Theorems -/

/-- C8.  The claim says `_normalize_identifier_value` upper-cases and
colon-joins ticker:exchange values.  The code's default branch only
trims: at scheme `ticker_exchange` and value `"aapl:xnas"` it returns the
value unchanged rather than `"AAPL:XNAS"`, and `_scheme_alias` does not
map `"ticker"` to `"ticker_exchange"` — both contradicting the repo's own
test suite (pytests/test_identifier_normalization.py), so the code, not
the claim, is at fault.  The CIK and LEI parts of the claim do hold. -/
theorem c8_ticker_normalization_code_bug :
    normalizeIdentifierValue "ticker_exchange" "aapl:xnas" = "aapl:xnas"
    ∧ "aapl:xnas" ≠ "AAPL:XNAS"
    ∧ schemeAlias "ticker" = "ticker"
    ∧ normalizeIdentifierValue "sec_cik" "1750" = "0000001750"
    ∧ normalizeIdentifierValue "gleif_lei" "5493001kjtiigc8y1r12" =
        "5493001KJTIIGC8Y1R12" := by
  refine ⟨by decide, by decide, by decide, by decide, by decide⟩

/-- C2.  If the normalized `(scheme, value)` pair is already recorded in
`entity_identifiers` for entity `ex.entityId`, then resolving the same
pair on behalf of any other entity `b` raises the `IntegrityError`
conflict (an `Except.error` carrying the conflict message); no row is
returned or added. -/
theorem c2_identifier_conflict_raises
    (table : List EntityIdentifierRow) (ex : EntityIdentifierRow)
    (b : Nat) (scheme value : String) (country issuer : Option String)
    (hfind : table.find? (fun r =>
        r.scheme == schemeAlias scheme &&
        r.value == normalizeIdentifierValue (schemeAlias scheme) value) = some ex)
    (howner : ex.entityId ≠ b) :
    getOrCreateEntityIdentifier table b scheme value country issuer =
      .error ("Identifier conflict: " ++ schemeAlias scheme ++ ":" ++
        normalizeIdentifierValue (schemeAlias scheme) value ++
        " already belongs to entity_id=" ++ pyStrNat ex.entityId) := by
  unfold getOrCreateEntityIdentifier
  simp only [hfind, if_pos howner]

/-- Witness for C2: entity 1 owns `sec_cik:0000320193`; entity 2's attempt
to claim the same CIK errors with the conflict message. -/
theorem c2_identifier_conflict_raises_witness :
    getOrCreateEntityIdentifier
      [⟨1, "sec_cik", "0000320193", none, some "sec"⟩]
      2 "sec_cik" "0000320193" none (some "sec") =
    .error ("Identifier conflict: " ++ schemeAlias "sec_cik" ++ ":" ++
      normalizeIdentifierValue (schemeAlias "sec_cik") "0000320193" ++
      " already belongs to entity_id=" ++ pyStrNat 1) :=
  c2_identifier_conflict_raises
    [⟨1, "sec_cik", "0000320193", none, some "sec"⟩]
    ⟨1, "sec_cik", "0000320193", none, some "sec"⟩
    2 "sec_cik" "0000320193" none (some "sec") (by decide) (by decide)

/-! ### Round-robin sharding is a partition (helpers for C3) -/

/-- Prepending an element to the partitioned list moves it into its own
bucket: flat-mapping the bucket filters over any duplicate-free index list
containing `f a` permutes to `a` consed onto the partition of the tail. -/
theorem flatMap_filter_cons_perm {α : Type} (f : α → Nat) (a : α) (t : List α) :
    ∀ js : List Nat, js.Nodup → f a ∈ js →
      (js.flatMap (fun j => (a :: t).filter (fun b => f b == j))).Perm
        (a :: js.flatMap (fun j => t.filter (fun b => f b == j))) := by
  intro js
  induction js with
  | nil => intro _ hmem; cases hmem
  | cons j rest ih =>
    intro hnd hmem
    have hnd' : rest.Nodup := (List.nodup_cons.mp hnd).2
    have hjrest : j ∉ rest := (List.nodup_cons.mp hnd).1
    simp only [List.flatMap_cons]
    by_cases hj : f a = j
    · have hfilter : (a :: t).filter (fun b => f b == j) =
          a :: t.filter (fun b => f b == j) := by
        simp [List.filter_cons, hj]
      have hrest : rest.flatMap (fun j' => (a :: t).filter (fun b => f b == j')) =
          rest.flatMap (fun j' => t.filter (fun b => f b == j')) := by
        apply List.flatMap_congr
        intro j' hj'
        have : f a ≠ j' := fun h => hjrest (by rw [hj] at h; exact h ▸ hj')
        simp [List.filter_cons, this]
      rw [hfilter, hrest, List.cons_append]
    · have hfilter : (a :: t).filter (fun b => f b == j) =
          t.filter (fun b => f b == j) := by
        simp [List.filter_cons, hj]
      have hmem' : f a ∈ rest := by
        rcases List.mem_cons.mp hmem with h | h
        · exact absurd h hj
        · exact h
      rw [hfilter]
      exact ((ih hnd' hmem').append_left _).trans List.perm_middle

/-- Partitioning a list into the `N` residue buckets of `f` and
concatenating the buckets is a permutation of the list. -/
theorem flatMap_range_filter_perm {α : Type} (N : Nat) (f : α → Nat) :
    ∀ l : List α, (∀ b ∈ l, f b < N) →
      ((List.range N).flatMap (fun j => l.filter (fun b => f b == j))).Perm l := by
  intro l
  induction l with
  | nil => simp
  | cons a t ih =>
    intro hbound
    have ha : f a ∈ List.range N :=
      List.mem_range.mpr (hbound a (List.mem_cons_self a t))
    have step := flatMap_filter_cons_perm f a t (List.range N)
      (List.nodup_range N) ha
    exact step.trans ((ih (fun b hb => hbound b (List.mem_cons_of_mem a hb))).cons a)

/-- C3.  For every file list and worker count `N ≥ 1`: `_chunked_files`
returns (without error) exactly the round-robin shard for every worker
index below `N`; the concatenation of the `N` shards is a permutation of
the input list (multiset equality); the position-level shards are
pairwise disjoint; and the file at position `i` lands in shard `i % N`. -/
theorem c3_chunked_files_partition (files : List SrcFile) (N : Nat)
    (hN : 1 ≤ N) :
    (∀ j, j < N → chunkedFiles files N j = .ok (shardForm files N j))
    ∧ ((List.range N).flatMap (shardForm files N)).Perm files
    ∧ (∀ j k p, j ≠ k →
        ¬(p ∈ enumShard files N j ∧ p ∈ enumShard files N k))
    ∧ (∀ i, (hi : i < files.length) →
        files.get ⟨i, hi⟩ ∈ shardForm files N (i % N)) := by
  have hpos : 0 < N := hN
  refine ⟨?_, ?_, ?_, ?_⟩
  · intro j hj
    by_cases h1 : N ≤ 1
    · have hN1 : N = 1 := Nat.le_antisymm h1 hN
      subst hN1
      have hj0 : j = 0 := Nat.lt_one_iff.mp hj
      subst hj0
      simp only [chunkedFiles, if_pos (Nat.le_refl 1)]
      congr 1
      have hfilter : files.enum.filter (fun p => p.1 % 1 == 0) = files.enum := by
        apply List.filter_eq_self.mpr
        intro p _
        simp [Nat.mod_one]
      simp [shardForm, enumShard, hfilter, List.enum_map_snd]
    · simp only [chunkedFiles, if_neg h1, if_neg (Nat.not_le.mpr hj)]
      rfl
  · have hmap : (List.range N).flatMap (shardForm files N) =
        ((List.range N).flatMap (enumShard files N)).map Prod.snd := by
      rw [List.map_flatMap]
      rfl
    rw [hmap]
    have hperm : ((List.range N).flatMap (enumShard files N)).Perm files.enum := by
      have := flatMap_range_filter_perm N (fun p : Nat × SrcFile => p.1 % N)
        files.enum (fun b _ => Nat.mod_lt b.1 hpos)
      simpa [enumShard] using this
    have := hperm.map Prod.snd
    simpa [List.enum_map_snd] using this
  · intro j k p hjk ⟨hpj, hpk⟩
    have h1 : p.1 % N = j := by
      have := (List.mem_filter.mp hpj).2
      simpa using this
    have h2 : p.1 % N = k := by
      have := (List.mem_filter.mp hpk).2
      simpa using this
    exact hjk (h1 ▸ h2)
  · intro i hi
    have hmem : (i, files.get ⟨i, hi⟩) ∈ files.enum :=
      List.mk_mem_enum_iff_getElem?.mpr (by simp [List.getElem?_eq_getElem hi])
    have hfil : (i, files.get ⟨i, hi⟩) ∈ enumShard files N (i % N) := by
      apply List.mem_filter.mpr
      exact ⟨hmem, by simp⟩
    exact List.mem_map.mpr ⟨(i, files.get ⟨i, hi⟩), hfil, rfl⟩

/-! ### Run-loop invariants (helpers for C1, C4, C7) -/

/-- Membership in a list is not created by appending a different element. -/
theorem not_mem_append_singleton {k fk : String} {l : List String}
    (h1 : k ∉ l) (h2 : fk ≠ k) : k ∉ l ++ [fk] := by
  simp only [List.mem_append, List.mem_singleton, not_or]
  exact ⟨h1, fun h => h2 h.symm⟩

/-- One loop iteration never removes a `FileProcessing` key. -/
theorem stepFile_processed_mono (c : String → Bool) (acc : RunResult)
    (f : IngestFile) (k : String) (hk : k ∈ acc.db.processed) :
    k ∈ (stepFile c acc f).db.processed := by
  obtain ⟨fk, fe, fo⟩ := f
  cases fo with
  | skipped r =>
    by_cases hmem : fk ∈ acc.db.processed <;> simp [stepFile, hmem, hk]
  | rows rs =>
    by_cases hmem : fk ∈ acc.db.processed
    · simp [stepFile, hmem, hk]
    · by_cases hc : c fk = true <;> simp [stepFile, hmem, hc, hk]

/-- A whole run never removes a `FileProcessing` key. -/
theorem runFold_processed_mono (c : String → Bool) :
    ∀ (files : List IngestFile) (acc : RunResult) (k : String),
      k ∈ acc.db.processed →
      k ∈ (files.foldl (stepFile c) acc).db.processed := by
  intro files
  induction files with
  | nil => intro acc k hk; exact hk
  | cons f t ih =>
    intro acc k hk
    exact ih (stepFile c acc f) k (stepFile_processed_mono c acc f k hk)

/-- One loop iteration neither unmarks a key nor reads a marked key. -/
theorem stepFile_marked_not_read (c : String → Bool) (acc : RunResult)
    (f : IngestFile) (k : String) (hk : k ∈ acc.db.processed)
    (hr : k ∉ acc.reads) : k ∉ (stepFile c acc f).reads := by
  obtain ⟨fk, fe, fo⟩ := f
  by_cases hmem : fk ∈ acc.db.processed
  · cases fo <;> simpa [stepFile, hmem] using hr
  · have hne : fk ≠ k := fun h => hmem (h ▸ hk)
    cases fo with
    | skipped r =>
      simpa [stepFile, hmem] using not_mem_append_singleton hr hne
    | rows rs =>
      by_cases hc : c fk = true <;>
        simpa [stepFile, hmem, hc] using not_mem_append_singleton hr hne

/-- A key that is already marked (and not yet in the read log) is never
read: the loop `continue`s before opening the file. -/
theorem runFold_marked_not_read (c : String → Bool) :
    ∀ (files : List IngestFile) (acc : RunResult) (k : String),
      k ∈ acc.db.processed → k ∉ acc.reads →
      k ∉ (files.foldl (stepFile c) acc).reads := by
  intro files
  induction files with
  | nil => intro acc k _ hr; exact hr
  | cons f t ih =>
    intro acc k hk hr
    exact ih (stepFile c acc f) k (stepFile_processed_mono c acc f k hk)
      (stepFile_marked_not_read c acc f k hk hr)

/-- Keys marked by one loop iteration: already marked, or the file's own
key when it yielded rows and its commit succeeded. -/
theorem stepFile_new_marker (c : String → Bool) (acc : RunResult)
    (f : IngestFile) (k : String)
    (hk : k ∈ (stepFile c acc f).db.processed) :
    k ∈ acc.db.processed ∨
      (c k = true ∧ f.key = k ∧ ∃ rs, f.outcome = .rows rs) := by
  obtain ⟨fk, fe, fo⟩ := f
  by_cases hmem : fk ∈ acc.db.processed
  · cases fo <;> simp_all [stepFile]
  · cases fo with
    | skipped r =>
      simp only [stepFile, if_neg hmem] at hk
      exact Or.inl hk
    | rows rs =>
      by_cases hc : c fk = true
      · simp only [stepFile, hmem, hc] at hk
        rcases List.mem_append.mp hk with h | h
        · exact Or.inl h
        · have hkfk : k = fk := List.mem_singleton.mp h
          subst hkfk
          exact Or.inr ⟨hc, rfl, rs, rfl⟩
      · simp_all [stepFile]

/-- Every key a run adds to `FileProcessing` comes from a row-yielding
file in the shard whose commit succeeded. -/
theorem runFold_new_marker (c : String → Bool) :
    ∀ (files : List IngestFile) (acc : RunResult) (k : String),
      k ∈ (files.foldl (stepFile c) acc).db.processed →
      k ∈ acc.db.processed ∨
        (c k = true ∧ ∃ f ∈ files, f.key = k ∧ ∃ rs, f.outcome = .rows rs) := by
  intro files
  induction files with
  | nil => intro acc k hk; exact Or.inl hk
  | cons f t ih =>
    intro acc k hk
    rcases ih (stepFile c acc f) k hk with hstep | ⟨hc, g, hg, hgk, rs, hrs⟩
    · rcases stepFile_new_marker c acc f k hstep with h | ⟨hc, hfk, rs, hrs⟩
      · exact Or.inl h
      · exact Or.inr ⟨hc, f, List.mem_cons_self f t, hfk, rs, hrs⟩
    · exact Or.inr ⟨hc, g, List.mem_cons_of_mem f hg, hgk, rs, hrs⟩

/-- With every commit succeeding, a run marks every row-yielding file it
was assigned. -/
theorem runFold_true_marks_rows :
    ∀ (files : List IngestFile) (acc : RunResult) (f : IngestFile),
      f ∈ files → (∃ rs, f.outcome = .rows rs) →
      f.key ∈ (files.foldl (stepFile (fun _ => true)) acc).db.processed := by
  intro files
  induction files with
  | nil => intro acc f hf; cases hf
  | cons g t ih =>
    intro acc f hf hrows
    rcases List.mem_cons.mp hf with hf | hf
    · subst hf
      obtain ⟨fk, fe, fo⟩ := f
      obtain ⟨rs, hrs⟩ := hrows
      simp only at hrs
      subst hrs
      rw [List.foldl_cons]
      exact runFold_processed_mono _ t _ fk (by
        by_cases hmem : fk ∈ acc.db.processed <;> simp [stepFile, hmem])
    · exact ih (stepFile (fun _ => true) acc g) f hf hrows

/-- If every row-yielding file in the shard is already marked, the run
changes neither the `daily_values` table nor the marker set, and inserts
nothing beyond what the accumulator already counted. -/
theorem runFold_no_new (c : String → Bool) :
    ∀ (files : List IngestFile) (acc : RunResult),
      (∀ f ∈ files, (∃ rs, f.outcome = .rows rs) → f.key ∈ acc.db.processed) →
      (files.foldl (stepFile c) acc).db = acc.db ∧
        (files.foldl (stepFile c) acc).inserted = acc.inserted := by
  intro files
  induction files with
  | nil => intro acc _; exact ⟨rfl, rfl⟩
  | cons f t ih =>
    intro acc hmarked
    have hstep : (stepFile c acc f).db = acc.db ∧
        (stepFile c acc f).inserted = acc.inserted := by
      obtain ⟨fk, fe, fo⟩ := f
      by_cases hmem : fk ∈ acc.db.processed
      · cases fo <;> simp [stepFile, hmem]
      · cases fo with
        | skipped r => simp [stepFile, hmem]
        | rows rs =>
          exact absurd (hmarked ⟨fk, fe, .rows rs⟩ (List.mem_cons_self _ t)
            ⟨rs, rfl⟩) hmem
    have htail := ih (stepFile c acc f)
      (fun g hg hrows => by
        rw [hstep.1]
        exact hmarked g (List.mem_cons_of_mem f hg) hrows)
    exact ⟨htail.1.trans hstep.1, htail.2.trans hstep.2⟩

/-- C1.  Running the ingestion over a file set (all commits succeeding)
and then running it again over the same unchanged set inserts zero new
`daily_values` rows and leaves the store untouched, whatever the second
run's commits do: every already-marked key is skipped without being read,
and a row whose `(entity_id, date_id, value_name_id)` triple is already
present is dropped by the `INSERT OR IGNORE` under the unique
constraint. -/
theorem c1_second_run_is_noop (files : List IngestFile) (db0 : DBState)
    (c2 : String → Bool) :
    (runIngest c2 (runIngest (fun _ => true) db0 files).db files).inserted = 0
    ∧ (runIngest c2 (runIngest (fun _ => true) db0 files).db files).db =
        (runIngest (fun _ => true) db0 files).db
    ∧ (∀ k, k ∈ (runIngest (fun _ => true) db0 files).db.processed →
        k ∉ (runIngest c2 (runIngest (fun _ => true) db0 files).db files).reads)
    ∧ (∀ (facts : List DVRow) (r : DVRow),
        facts.any (fun x => x.sameKey r) = true → insertIgnore facts r = (facts, 0)) := by
  have hmarked : ∀ f ∈ files, (∃ rs, f.outcome = FileOutcome.rows rs) →
      f.key ∈ (runIngest (fun _ => true) db0 files).db.processed := by
    intro f hf hrows
    exact runFold_true_marks_rows files ⟨db0, 0, [], []⟩ f hf hrows
  have hnonew := runFold_no_new c2 files
    ⟨(runIngest (fun _ => true) db0 files).db, 0, [], []⟩ (fun f hf hrows =>
      hmarked f hf hrows)
  refine ⟨hnonew.2, hnonew.1, ?_, ?_⟩
  · intro k hk
    exact runFold_marked_not_read c2 files
      ⟨(runIngest (fun _ => true) db0 files).db, 0, [], []⟩ k hk
      (List.not_mem_nil k)
  · intro facts r hdup
    unfold insertIgnore
    rw [if_pos hdup]

/-- Witness for C1: one concrete file committed in a first run is skipped
unread by a second run over the same set. -/
theorem c1_second_run_is_noop_witness :
    "companyfacts:CIK0000000001.json" ∉
      (runIngest (fun _ => false)
        (runIngest (fun _ => true) ⟨[], []⟩
          [⟨"companyfacts:CIK0000000001.json", 1,
            .rows [⟨1, 1, 1, "7"⟩]⟩]).db
        [⟨"companyfacts:CIK0000000001.json", 1,
          .rows [⟨1, 1, 1, "7"⟩]⟩]).reads :=
  (c1_second_run_is_noop
    [⟨"companyfacts:CIK0000000001.json", 1, .rows [⟨1, 1, 1, "7"⟩]⟩]
    ⟨[], []⟩ (fun _ => false)).2.2.1
    "companyfacts:CIK0000000001.json" (by decide)

/-- C4.  A `FileProcessing` marker key that a run adds was committed
(`commitOk`) together with that file's row batch — the marker insert and
the fact-row inserts share the per-file transaction, so the marker exists
only after a successful commit of the file's rows; and on a rerun every
already-marked key is skipped without the file being read. -/
theorem c4_marker_after_commit_and_skip (c : String → Bool) (db0 : DBState)
    (files : List IngestFile) :
    (∀ k, k ∈ (runIngest c db0 files).db.processed →
      k ∈ db0.processed ∨
        (c k = true ∧ ∃ f ∈ files, f.key = k ∧ ∃ rs, f.outcome = .rows rs))
    ∧ (∀ k, k ∈ db0.processed → k ∉ (runIngest c db0 files).reads) := by
  constructor
  · intro k hk
    exact runFold_new_marker c files ⟨db0, 0, [], []⟩ k hk
  · intro k hk
    exact runFold_marked_not_read c files ⟨db0, 0, [], []⟩ k hk
      (List.not_mem_nil k)

/-- Witness for C4: a key marked before the run is never read by it. -/
theorem c4_marker_after_commit_and_skip_witness :
    "submissions:CIK0000000002.json" ∉
      (runIngest (fun _ => true) ⟨[], ["submissions:CIK0000000002.json"]⟩
        [⟨"submissions:CIK0000000002.json", 2, .skipped "missing_facts"⟩,
         ⟨"other", 3, .rows [⟨3, 1, 1, "x"⟩]⟩]).reads :=
  (c4_marker_after_commit_and_skip (fun _ => true)
    ⟨[], ["submissions:CIK0000000002.json"]⟩
    [⟨"submissions:CIK0000000002.json", 2, .skipped "missing_facts"⟩,
     ⟨"other", 3, .rows [⟨3, 1, 1, "x"⟩]⟩]).2
    "submissions:CIK0000000002.json" (by decide)

/-- Witness for C3: three files over two workers concatenate back to the
full list up to permutation. -/
theorem c3_chunked_files_partition_witness :
    ((List.range 2).flatMap
      (shardForm [("a", "pa", "f1"), ("b", "pb", "f2"), ("c", "pc", "f3")] 2)).Perm
      [("a", "pa", "f1"), ("b", "pb", "f2"), ("c", "pc", "f3")] :=
  (c3_chunked_files_partition
    [("a", "pa", "f1"), ("b", "pb", "f2"), ("c", "pc", "f3")] 2 (by decide)).2.1

/-- C7.  A submissions payload whose resolved `recent` section is a
nonempty dict containing neither a `filingDate` list nor a `reportDate`
list with entries: `process_submissions_file` builds no rows, inserts
nothing (the store is returned unchanged with zero planned inserts), and
returns the reason `"submissions_missing_dates"`; `_run`'s dispatch turns
that reason into a logged skip, so a run over such a file inserts nothing
and records the reason. -/
theorem c7_submissions_missing_dates
    (g1 : String → Nat) (g2 : String → Option Nat → Nat)
    (g3 : JVal → Option Nat) (eid : Nat) (data : JVal)
    (schema : String) (recent : List (String × JVal))
    (hres : resolveRecentPayload data = (schema, some recent))
    (hne : recent ≠ [])
    (hfd : listFieldOf recent "filingDate" = [])
    (hrd : listFieldOf recent "reportDate" = []) :
    processSubmissionsRows g1 g2 g3 eid data =
      (schema, [], some "submissions_missing_dates")
    ∧ (∀ facts0 : List DVRow,
        processSubmissionsFile g1 g2 g3 eid data facts0 =
          (facts0, schema, 0, 0, some "submissions_missing_dates"))
    ∧ submissionsFileOutcome g1 g2 g3 eid data =
        .skipped "submissions_missing_dates"
    ∧ (∀ (c : String → Bool) (db : DBState) (key : String) (entId : Nat),
        key ∉ db.processed →
        (runIngest c db
          [⟨key, entId, submissionsFileOutcome g1 g2 g3 eid data⟩]).inserted = 0
        ∧ "submissions_missing_dates" ∈
            (runIngest c db
              [⟨key, entId, submissionsFileOutcome g1 g2 g3 eid data⟩]).skipReasons) := by
  have hrows : processSubmissionsRows g1 g2 g3 eid data =
      (schema, [], some "submissions_missing_dates") := by
    unfold processSubmissionsRows
    rw [hres]
    simp [hne, hfd, hrd]
  have houtcome : submissionsFileOutcome g1 g2 g3 eid data =
      .skipped "submissions_missing_dates" := by
    unfold submissionsFileOutcome
    rw [hrows]
  refine ⟨hrows, ?_, houtcome, ?_⟩
  · intro facts0
    unfold processSubmissionsFile
    rw [hrows]
  · intro c db key entId hkey
    rw [houtcome]
    constructor
    · simp [runIngest, stepFile, hkey]
    · simp [runIngest, stepFile, hkey]

/-- Witness for C7: a concrete full-shape payload whose `recent` holds
only a `form` array is skipped with the missing-dates reason. -/
theorem c7_submissions_missing_dates_witness :
    processSubmissionsRows (fun _ => 1) (fun _ _ => 1) (fun _ => some 1) 1
      (.jdict [("cik", .jstr "1750"),
        ("filings", .jdict [("recent", .jdict [("form", .jlist [.jstr "10-K"])])])]) =
      ("full_submissions", [], some "submissions_missing_dates") :=
  (c7_submissions_missing_dates (fun _ => 1) (fun _ _ => 1) (fun _ => some 1) 1
    (.jdict [("cik", .jstr "1750"),
      ("filings", .jdict [("recent", .jdict [("form", .jlist [.jstr "10-K"])])])])
    "full_submissions" [("form", .jlist [.jstr "10-K"])]
    rfl (by simp) rfl rfl).1

/-- C6.  A companyfacts point with a `val` and a truthy `end` whose unit
key is blank (no recognized unit: empty or whitespace-only) still
produces exactly one `daily_values` row, whose value-name is created with
the unit id resolved for the placeholder `"NA"`; inserting into a fresh
store plans and lands exactly that one row with zero duplicates. -/
theorem c6_companyfacts_blank_unit_one_row
    (unitTable : String → Nat) (g2 : String → Option Nat → Nat)
    (g3 : JVal → Option Nat) (eid : Nat) (ns metric u e : String) (v : JVal)
    (did : Nat)
    (hu : stripChars u.data = [])
    (he : e ≠ "")
    (hdate : g3 (.jstr e) = some did) (hdid : did ≠ 0) :
    processCompanyfactsRows (getUnitIdCached unitTable) g2 g3 eid
      (.jdict [("facts", .jdict [(ns, .jdict [(metric, .jdict [("units",
        .jdict [(u, .jlist [.jdict [("end", .jstr e), ("val", v)]])])])])])]) =
      [⟨eid, did, g2 (ns ++ "." ++ metric) (some (unitTable "NA")), safeStr v⟩]
    ∧ processCompanyfactsFile (getUnitIdCached unitTable) g2 g3 eid
      (.jdict [("facts", .jdict [(ns, .jdict [(metric, .jdict [("units",
        .jdict [(u, .jlist [.jdict [("end", .jstr e), ("val", v)]])])])])])]) [] =
      ([⟨eid, did, g2 (ns ++ "." ++ metric) (some (unitTable "NA")), safeStr v⟩],
        1, 0) := by
  have hna : getUnitIdCached unitTable u = unitTable "NA" := by
    by_cases hu0 : u = ""
    · subst hu0
      rfl
    · simp [getUnitIdCached, pyStrip, hu0, hu]
  have hrows : processCompanyfactsRows (getUnitIdCached unitTable) g2 g3 eid
      (.jdict [("facts", .jdict [(ns, .jdict [(metric, .jdict [("units",
        .jdict [(u, .jlist [.jdict [("end", .jstr e), ("val", v)]])])])])])]) =
      [⟨eid, did, g2 (ns ++ "." ++ metric) (some (unitTable "NA")), safeStr v⟩] := by
    simp [processCompanyfactsRows, jget, dictGet, isNonemptyDict,
      iterCompanyfactsPoints, pointEntries, optTruthy, truthy, he, hdate, hdid,
      hna]
  refine ⟨hrows, ?_⟩
  unfold processCompanyfactsFile
  rw [hrows]
  simp [insertIgnoreBulk, insertIgnore]

/-- Witness for C6: one concrete point under a whitespace unit key yields
exactly one row. -/
theorem c6_companyfacts_blank_unit_one_row_witness :
    processCompanyfactsRows (getUnitIdCached (fun _ => 5)) (fun _ _ => 7)
      (fun _ => some 3) 1
      (.jdict [("facts", .jdict [("us-gaap", .jdict [("Assets", .jdict [("units",
        .jdict [(" ", .jlist [.jdict [("end", .jstr "2020-12-31"),
          ("val", .jstr "42")]])])])])])]) =
      [⟨1, 3, 7, "42"⟩] :=
  (c6_companyfacts_blank_unit_one_row (fun _ => 5) (fun _ _ => 7)
    (fun _ => some 3) 1 "us-gaap" "Assets" " " "2020-12-31" (.jstr "42") 3
    (by decide) (by decide) rfl (by decide)).1

/-! ### Truncation helpers (for C10) -/

/-- Python slicing `s[:n]` never yields more than `n` characters. -/
theorem strTake_length_le (s : String) (n : Nat) : (strTake s n).length ≤ n := by
  show (s.data.take n).length ≤ n
  simp [List.length_take]

/-- Every `_safe_str` result fits in its 4000-character budget. -/
theorem safeStr_length_le (v : JVal) : (safeStr v).length ≤ 4000 := by
  cases v with
  | jnull => simp [safeStr, safeStrMax]
  | jbool b => exact strTake_length_le _ _
  | jint n => exact strTake_length_le _ _
  | jstr s => exact strTake_length_le _ _
  | jlist xs => exact strTake_length_le _ _
  | jdict kvs => exact strTake_length_le _ _

/-- C10.  `_safe_str` maps `None` to `""`, truncates everything else to
4000 characters, and every `daily_values` row the pipeline builds —
companyfacts or submissions — stores a value of at most 4000
characters. -/
theorem c10_values_at_most_4000_chars :
    (∀ v, (safeStr v).length ≤ 4000)
    ∧ safeStr .jnull = ""
    ∧ (∀ (g1 : String → Nat) (g2 : String → Option Nat → Nat)
        (g3 : JVal → Option Nat) (eid : Nat) (data : JVal) (r : DVRow),
        r ∈ processCompanyfactsRows g1 g2 g3 eid data →
        r.value.length ≤ 4000)
    ∧ (∀ (g1 : String → Nat) (g2 : String → Option Nat → Nat)
        (g3 : JVal → Option Nat) (eid : Nat) (data : JVal) (r : DVRow),
        r ∈ (processSubmissionsRows g1 g2 g3 eid data).2.1 →
        r.value.length ≤ 4000) := by
  refine ⟨safeStr_length_le, rfl, ?_, ?_⟩
  · intro g1 g2 g3 eid data r hr
    unfold processCompanyfactsRows at hr
    cases hj : jget data "facts" with
    | none => rw [hj] at hr; cases hr
    | some facts =>
      rw [hj] at hr
      dsimp only at hr
      by_cases hne : isNonemptyDict facts
      · rw [if_pos hne] at hr
        rcases List.mem_filterMap.mp hr with ⟨q, _, hf⟩
        cases hg : g3 q.2.2.1 with
        | none => rw [hg] at hf; cases hf
        | some did =>
          rw [hg] at hf
          dsimp only at hf
          by_cases h0 : (did == 0) = true
          · rw [if_pos h0] at hf; cases hf
          · rw [if_neg h0] at hf
            injection hf with hf
            subst hf
            exact safeStr_length_le _
      · rw [if_neg hne] at hr; cases hr
  · intro g1 g2 g3 eid data r hr
    unfold processSubmissionsRows at hr
    rcases hres : resolveRecentPayload data with ⟨schema, recentOpt⟩
    rw [hres] at hr
    cases recentOpt with
    | none => cases hr
    | some recent =>
      dsimp only at hr
      by_cases hempty : recent.isEmpty = true
      · rw [if_pos hempty] at hr; cases hr
      · rw [if_neg hempty] at hr
        by_cases hdates : ((listFieldOf recent "filingDate").isEmpty &&
            (listFieldOf recent "reportDate").isEmpty) = true
        · rw [if_pos hdates] at hr; cases hr
        · rw [if_neg hdates] at hr
          rcases List.mem_filterMap.mp hr with ⟨q, _, hf⟩
          cases hd : q.2.2.1 with
          | none => rw [hd] at hf; cases hf
          | some d =>
            rw [hd] at hf
            dsimp only at hf
            cases hg : g3 d with
            | none => rw [hg] at hf; cases hf
            | some did =>
              rw [hg] at hf
              dsimp only at hf
              by_cases h0 : (did == 0) = true
              · rw [if_pos h0] at hf; cases hf
              · rw [if_neg h0] at hf
                injection hf with hf
                subst hf
                exact safeStr_length_le _

/-- Witness for C10: a concrete companyfacts-built row's value is within
the limit. -/
theorem c10_values_at_most_4000_chars_witness :
    (⟨1, 3, 7, "42"⟩ : DVRow).value.length ≤ 4000 :=
  c10_values_at_most_4000_chars.2.2.1 (fun _ => 5) (fun _ _ => 7)
    (fun _ => some 3) 1
    (.jdict [("facts", .jdict [("us-gaap", .jdict [("Assets", .jdict [("units",
      .jdict [("USD", .jlist [.jdict [("end", .jstr "2020-12-31"),
        ("val", .jstr "42")]])])])])])])
    ⟨1, 3, 7, "42"⟩ (by decide)

/-! ### Retry-loop invariants (helpers for C9) -/

/-- The retry loop only ever returns `.ok` for a 2xx status. -/
theorem secRequestGo_ok_2xx (oracle : Nat → AttemptResult) (m : Nat) :
    ∀ (rem att st : Nat),
      (secRequestGo oracle m rem att).1 = .ok st → is2xx st = true := by
  intro rem
  induction rem with
  | zero =>
    intro att st h
    simp [secRequestGo] at h
  | succ rem ih =>
    intro att st h
    unfold secRequestGo at h
    cases horacle : oracle att with
    | exc e =>
      rw [horacle] at h
      dsimp only at h
      by_cases hlast : att < m - 1
      · rw [if_pos hlast] at h
        exact ih (att + 1) st h
      · rw [if_neg hlast] at h
        simp at h
    | resp st' ra =>
      rw [horacle] at h
      dsimp only at h
      by_cases h2 : is2xx st' = true
      · rw [if_pos h2] at h
        dsimp only at h
        injection h with h
        subst h
        exact h2
      · rw [if_neg h2] at h
        by_cases hretry : (retryableStatus st' && decide (att < m - 1)) = true
        · rw [if_pos hretry] at h
          exact ih (att + 1) st h
        · rw [if_neg hretry] at h
          simp at h

/-- If every attempt in range fails (is not a 2xx response), the loop
ends in a raise. -/
theorem secRequestGo_all_fail (oracle : Nat → AttemptResult) (m : Nat) :
    ∀ (rem att : Nat),
      (∀ i, att ≤ i → i < m → successAttempt (oracle i) = false) →
      att + rem ≤ m →
      ∃ e, (secRequestGo oracle m rem att).1 = .error e := by
  intro rem
  induction rem with
  | zero =>
    intro att _ _
    exact ⟨"SEC request failed", rfl⟩
  | succ rem ih =>
    intro att hall hle
    have hatt : att < m := by omega
    unfold secRequestGo
    cases horacle : oracle att with
    | exc e =>
      dsimp only
      by_cases hlast : att < m - 1
      · rw [if_pos hlast]
        exact ih (att + 1) (fun i h1 h2 => hall i (by omega) h2) (by omega)
      · rw [if_neg hlast]
        exact ⟨e, rfl⟩
    | resp st ra =>
      have hfail : is2xx st = false := by
        have := hall att (Nat.le_refl att) hatt
        rw [horacle] at this
        simpa [successAttempt] using this
      dsimp only
      rw [if_neg (by simp [hfail])]
      by_cases hretry : (retryableStatus st && decide (att < m - 1)) = true
      · rw [if_pos hretry]
        exact ih (att + 1) (fun i h1 h2 => hall i (by omega) h2) (by omega)
      · rw [if_neg hretry]
        exact ⟨_, rfl⟩

/-- With every attempt in range retryable, the loop performs exactly one
sleep per retried attempt, choosing the parsed `Retry-After` when it is
available and the capped exponential backoff otherwise. -/
theorem secRequestGo_sleeps (oracle : Nat → AttemptResult) (m : Nat) :
    ∀ (rem att : Nat),
      (∀ i, att ≤ i → i < m → retryableAttempt (oracle i) = true) →
      att + rem = m →
      (secRequestGo oracle m rem att).2.length = m - 1 - att ∧
      ∀ j, j < m - 1 - att →
        (secRequestGo oracle m rem att).2.get? j =
          some (expectedSleep (oracle (att + j)) (att + j)) := by
  intro rem
  induction rem with
  | zero =>
    intro att _ heq
    constructor
    · simp only [secRequestGo, List.length_nil]
      omega
    · intro j hj
      omega
  | succ rem ih =>
    intro att hall heq
    have hatt : att < m := by omega
    have hretryatt := hall att (Nat.le_refl att) hatt
    have htail := fun (hlast : att < m - 1) => ih (att + 1)
      (fun i h1 h2 => hall i (by omega) h2) (by omega)
    unfold secRequestGo
    cases horacle : oracle att with
    | exc e =>
      dsimp only
      by_cases hlast : att < m - 1
      · rw [if_pos hlast]
        obtain ⟨hlen, hget⟩ := htail hlast
        constructor
        · simp only [List.length_cons, hlen]
          omega
        · intro j hj
          cases j with
          | zero =>
            simp [expectedSleep, horacle]
          | succ j' =>
            have hidx : (att + 1) + j' = att + (j' + 1) := by omega
            simp only [List.get?_cons_succ]
            rw [hget j' (by omega), hidx]
      · rw [if_neg hlast]
        constructor
        · simp only [List.length_nil]
          omega
        · intro j hj
          omega
    | resp st ra =>
      have hra : is2xx st = false ∧ retryableStatus st = true := by
        have h := hretryatt
        rw [horacle] at h
        simpa [retryableAttempt] using h
      have hfail := hra.1
      have hstatus := hra.2
      dsimp only
      rw [if_neg (by simp [hfail])]
      by_cases hlast : att < m - 1
      · rw [if_pos (by simp [hstatus, hlast])]
        obtain ⟨hlen, hget⟩ := htail hlast
        constructor
        · cases hparse : parseRetryAfterSeconds ra <;>
            simp only [hparse, List.length_cons, hlen] <;> omega
        · intro j hj
          cases j with
          | zero =>
            cases hparse : parseRetryAfterSeconds ra <;>
              simp [expectedSleep, horacle, hparse]
          | succ j' =>
            have hidx : (att + 1) + j' = att + (j' + 1) := by omega
            cases hparse : parseRetryAfterSeconds ra <;>
              · simp only [hparse, List.get?_cons_succ]
                rw [hget j' (by omega), hidx]
      · rw [if_neg (by simp [hlast])]
        constructor
        · simp only [List.length_nil]
          omega
        · intro j hj
          omega

/-- C9.  `_request` never returns a non-2xx response: a 2xx result is the
only `.ok` outcome.  If every attempt fails, the call raises after at
most `max_attempts` attempts.  And when every attempt takes the retry
path (exception, 429 or 5xx), the loop sleeps exactly once per retried
attempt — `max_attempts - 1` sleeps in total — honouring a parseable
integer `Retry-After` header and otherwise using the capped exponential
backoff `min(0.5 * 2^i, 8.0)`. -/
theorem c9_request_retry_policy (oracle : Nat → AttemptResult) (m : Nat) :
    (∀ st, (secRequest oracle m).1 = .ok st → is2xx st = true)
    ∧ ((∀ i, i < m → successAttempt (oracle i) = false) →
        ∃ e, (secRequest oracle m).1 = .error e)
    ∧ ((∀ i, i < m → retryableAttempt (oracle i) = true) →
        (secRequest oracle m).2.length = m - 1
        ∧ ∀ j, j < m - 1 →
            (secRequest oracle m).2.get? j =
              some (expectedSleep (oracle j) j)) := by
  by_cases hm : m = 0
  · subst hm
    refine ⟨?_, ?_, ?_⟩
    · intro st h
      simp [secRequest] at h
    · intro _
      exact ⟨"max_attempts must be >= 1", rfl⟩
    · intro _
      exact ⟨rfl, fun j hj => by omega⟩
  · unfold secRequest
    rw [if_neg hm]
    refine ⟨?_, ?_, ?_⟩
    · exact secRequestGo_ok_2xx oracle m m 0
    · intro hall
      exact secRequestGo_all_fail oracle m m 0
        (fun i _ h2 => hall i h2) (by omega)
    · intro hall
      have := secRequestGo_sleeps oracle m m 0
        (fun i _ h2 => hall i h2) (by omega)
      simpa using this

/-- Witness for C9: three attempts, all 503 with `Retry-After: 7`; the
loop sleeps twice, honouring the header both times, and the call ends in
an error. -/
theorem c9_request_retry_policy_witness :
    (secRequest (fun _ => .resp 503 (some "7")) 3).2.get? 0 =
      some (expectedSleep ((fun _ => AttemptResult.resp 503 (some "7")) 0) 0) :=
  ((c9_request_retry_policy (fun _ => .resp 503 (some "7")) 3).2.2
    (by intro i _; decide)).2 0 (by decide)

/-! ### Decimal representations (helpers for C5) -/

/-- Characters with equal code points are equal. -/
theorem char_toNat_inj (c d : Char) (h : c.toNat = d.toNat) : c = d :=
  Char.ext (UInt32.ext h)

/-- `digitChar` is a right inverse of `digitVal` on digits. -/
theorem digitVal_digitChar (d : Nat) (h : d < 10) :
    digitVal (digitChar d) = d := by
  interval_cases d <;> rfl

/-- `digitChar` always produces an ASCII digit. -/
theorem isAsciiDigit_digitChar (d : Nat) : isAsciiDigit (digitChar d) = true := by
  unfold digitChar
  split <;> rfl

/-- Digit characters with equal values are equal. -/
theorem digit_char_eq_of_val_eq (c d : Char) (hc : isAsciiDigit c = true)
    (hd : isAsciiDigit d = true) (h : digitVal c = digitVal d) : c = d := by
  simp [isAsciiDigit] at hc hd
  unfold digitVal at h
  exact char_toNat_inj c d (by omega)

/-- `natDigitsRevGo` ignores the fuel as long as there is enough of it. -/
theorem natDigitsRevGo_congr :
    ∀ (f1 f2 m : Nat), m < f1 → m < f2 →
      natDigitsRevGo f1 m = natDigitsRevGo f2 m := by
  intro f1
  induction f1 with
  | zero => intro f2 m h1 _; omega
  | succ f1 ih =>
    intro f2 m h1 h2
    cases f2 with
    | zero => omega
    | succ f2 =>
      simp only [natDigitsRevGo]
      by_cases hm : m < 10
      · rw [if_pos hm, if_pos hm]
      · rw [if_neg hm, if_neg hm]
        have hdiv : m / 10 < m := Nat.div_lt_self (by omega) (by omega)
        rw [ih f2 (m / 10) (by omega) (by omega)]

/-- The recursion equation of `natDigitsRev`. -/
theorem natDigitsRev_unfold (n : Nat) :
    natDigitsRev n =
      if n < 10 then [digitChar n]
      else digitChar (n % 10) :: natDigitsRev (n / 10) := by
  have h0 : natDigitsRev n =
      if n < 10 then [digitChar n]
      else digitChar (n % 10) :: natDigitsRevGo n (n / 10) := rfl
  rw [h0]
  by_cases h : n < 10
  · rw [if_pos h, if_pos h]
  · rw [if_neg h, if_neg h]
    have hdiv : n / 10 < n := Nat.div_lt_self (by omega) (by omega)
    rw [natDigitsRevGo_congr n (n / 10 + 1) (n / 10) (by omega) (by omega)]
    rfl

/-- A decimal expansion is never empty. -/
theorem natDigitsRev_ne_nil (n : Nat) : natDigitsRev n ≠ [] := by
  rw [natDigitsRev_unfold]
  split <;> simp

/-- Decimal expansions consist of digits. -/
theorem isDigitList_natDigitsRev (n : Nat) :
    isDigitList (natDigitsRev n) = true := by
  induction n using Nat.strong_induction_on with
  | _ n ih =>
    rw [natDigitsRev_unfold]
    by_cases h : n < 10
    · rw [if_pos h]
      simp [isDigitList, isAsciiDigit_digitChar]
    · rw [if_neg h]
      have hdiv : n / 10 < n := Nat.div_lt_self (by omega) (by omega)
      have ht := ih (n / 10) hdiv
      simp only [isDigitList, List.all_cons, isAsciiDigit_digitChar,
        Bool.true_and] at ht ⊢
      exact ht

/-- The decimal expansion evaluates back to its number. -/
theorem valRev_natDigitsRev (n : Nat) : valRev (natDigitsRev n) = n := by
  induction n using Nat.strong_induction_on with
  | _ n ih =>
    rw [natDigitsRev_unfold]
    by_cases h : n < 10
    · rw [if_pos h]
      simp [valRev, digitVal_digitChar n h]
    · rw [if_neg h]
      have hdiv : n / 10 < n := Nat.div_lt_self (by omega) (by omega)
      simp only [valRev, digitVal_digitChar (n % 10) (Nat.mod_lt n (by omega)),
        ih (n / 10) hdiv]
      omega

/-- The decimal expansion is short enough: `n < 10 ^ length`. -/
theorem natDigitsRev_lt_pow (n : Nat) : n < 10 ^ (natDigitsRev n).length := by
  induction n using Nat.strong_induction_on with
  | _ n ih =>
    rw [natDigitsRev_unfold]
    by_cases h : n < 10
    · rw [if_pos h]
      simpa using h
    · rw [if_neg h]
      have hdiv : n / 10 < n := Nat.div_lt_self (by omega) (by omega)
      have hk := ih (n / 10) hdiv
      simp only [List.length_cons, pow_succ]
      omega

/-- The decimal expansion is long enough: `10 ^ (length - 1) ≤ n` for
positive `n`. -/
theorem natDigitsRev_pow_le :
    ∀ n : Nat, 1 ≤ n → 10 ^ ((natDigitsRev n).length - 1) ≤ n := by
  intro n
  induction n using Nat.strong_induction_on with
  | _ n ih =>
    intro h1
    rw [natDigitsRev_unfold]
    by_cases h : n < 10
    · rw [if_pos h]
      simpa using h1
    · rw [if_neg h]
      have hdiv : n / 10 < n := Nat.div_lt_self (by omega) (by omega)
      have hlow : 1 ≤ n / 10 := by omega
      have hk := ih (n / 10) hdiv hlow
      have hpos : 1 ≤ (natDigitsRev (n / 10)).length :=
        List.length_pos.mpr (natDigitsRev_ne_nil (n / 10))
      simp only [List.length_cons]
      have hexp : (natDigitsRev (n / 10)).length + 1 - 1 =
          ((natDigitsRev (n / 10)).length - 1) + 1 := by omega
      rw [hexp, pow_succ]
      calc 10 ^ ((natDigitsRev (n / 10)).length - 1) * 10 ≤ (n / 10) * 10 :=
            Nat.mul_le_mul_right 10 hk
        _ ≤ n := Nat.div_mul_le_self n 10

/-- Splitting a little-endian evaluation over an append. -/
theorem valRev_append (m1 m2 : List Char) :
    valRev (m1 ++ m2) = valRev m1 + 10 ^ m1.length * valRev m2 := by
  induction m1 with
  | nil => simp [valRev]
  | cons c t ih =>
    simp only [List.cons_append, valRev, List.length_cons, pow_succ,
      List.append_eq]
    rw [ih]
    ring

/-- Zeros evaluate to zero. -/
theorem valRev_replicate_zero (k : Nat) :
    valRev (List.replicate k '0') = 0 := by
  induction k with
  | zero => rfl
  | succ k ih => simp [List.replicate_succ, valRev, ih]; rfl

/-- High-order (big-endian leading) zeros do not change the value. -/
theorem valRev_append_zeros (m : List Char) (k : Nat) :
    valRev (m ++ List.replicate k '0') = valRev m := by
  rw [valRev_append, valRev_replicate_zero]
  ring

/-- A digit list evaluates below `10 ^ length`. -/
theorem valRev_lt (m : List Char) (hd : isDigitList m = true) :
    valRev m < 10 ^ m.length := by
  induction m with
  | nil => simp [valRev]
  | cons c t ih =>
    simp only [isDigitList, List.all_cons, Bool.and_eq_true] at hd
    have hdc : digitVal c ≤ 9 := by
      have := hd.1
      simp [isAsciiDigit] at this
      unfold digitVal
      omega
    have ht := ih hd.2
    simp only [valRev, List.length_cons, pow_succ]
    omega

/-- Digit lists of equal length with equal little-endian value are
equal. -/
theorem valRev_inj :
    ∀ (m1 m2 : List Char), isDigitList m1 = true → isDigitList m2 = true →
      m1.length = m2.length → valRev m1 = valRev m2 → m1 = m2 := by
  intro m1
  induction m1 with
  | nil =>
    intro m2 _ _ hlen _
    cases m2 with
    | nil => rfl
    | cons c t => simp at hlen
  | cons c1 t1 ih =>
    intro m2 h1 h2 hlen hval
    cases m2 with
    | nil => simp at hlen
    | cons c2 t2 =>
      simp only [isDigitList, List.all_cons, Bool.and_eq_true] at h1 h2
      have hc1 : digitVal c1 ≤ 9 := by
        have := h1.1; simp [isAsciiDigit] at this; unfold digitVal; omega
      have hc2 : digitVal c2 ≤ 9 := by
        have := h2.1; simp [isAsciiDigit] at this; unfold digitVal; omega
      simp only [valRev] at hval
      have hdv : digitVal c1 = digitVal c2 := by omega
      have hrest : valRev t1 = valRev t2 := by omega
      have hlen' : t1.length = t2.length := by
        simpa using hlen
      rw [digit_char_eq_of_val_eq c1 c2 h1.1 h2.1 hdv,
        ih t2 h1.2 h2.2 hlen' hrest]

/-- The big-endian (`foldl`) evaluation is the little-endian one of the
reverse. -/
theorem decValue_eq_valRev_reverse (l : List Char) :
    decValue l = valRev l.reverse := by
  induction l using List.reverseRecOn with
  | nil => rfl
  | append_singleton l c ih =>
    have h1 : decValue (l ++ [c]) = decValue l * 10 + digitVal c := by
      unfold decValue
      rw [List.foldl_append]
      rfl
    rw [h1, List.reverse_append]
    simp [valRev, ih]
    ring

/-- `dropWhile` is the identity when no element satisfies the predicate. -/
theorem dropWhile_eq_self_of_none {p : Char → Bool} :
    ∀ l : List Char, (∀ c ∈ l, p c = false) → l.dropWhile p = l := by
  intro l h
  cases l with
  | nil => rfl
  | cons c t => simp [List.dropWhile_cons, h c (List.mem_cons_self c t)]

/-- `str.strip()` is the identity on strings without edge whitespace. -/
theorem stripChars_eq_self (l : List Char) (h : ∀ c ∈ l, isPySpace c = false) :
    stripChars l = l := by
  unfold stripChars
  rw [dropWhile_eq_self_of_none l h,
    dropWhile_eq_self_of_none l.reverse (fun c hc => h c (List.mem_reverse.mp hc)),
    List.reverse_reverse]

/-- Digits are not whitespace. -/
theorem isPySpace_eq_false_of_digit (c : Char) (h : isAsciiDigit c = true) :
    isPySpace c = false := by
  simp only [isAsciiDigit, Bool.and_eq_true, decide_eq_true_eq] at h
  by_contra hn
  have hsp : isPySpace c = true := by
    cases hx : isPySpace c
    · exact absurd hx hn
    · rfl
  simp only [isPySpace, Bool.or_eq_true, decide_eq_true_eq] at hsp
  rcases hsp with ((((h1 | h1) | h1) | h1) | h1) | h1
  · subst h1; exact absurd h (by decide)
  · subst h1; exact absurd h (by decide)
  · subst h1; exact absurd h (by decide)
  · subst h1; exact absurd h (by decide)
  · omega
  · omega

/-- Digits are not the minus sign. -/
theorem ne_dash_of_digit (c : Char) (h : isAsciiDigit c = true) : c ≠ '-' :=
  fun hc => by subst hc; exact absurd h (by decide)

/-- Digits are not the plus sign. -/
theorem ne_plus_of_digit (c : Char) (h : isAsciiDigit c = true) : c ≠ '+' :=
  fun hc => by subst hc; exact absurd h (by decide)

/-- `int()` on a nonempty all-digit string parses its decimal value. -/
theorem pyIntOfString_digits (l : List Char) (hne : l ≠ [])
    (hd : isDigitList l = true) :
    pyIntOfString (String.mk l) = some ((decValue l : Int)) := by
  unfold pyIntOfString
  have hdata : (String.mk l).data = l := rfl
  rw [hdata, stripChars_eq_self l (fun c hc => isPySpace_eq_false_of_digit c (by
    simp only [isDigitList, List.all_eq_true] at hd
    exact hd c hc))]
  cases l with
  | nil => exact absurd rfl hne
  | cons c rest =>
    have hc : isAsciiDigit c = true := by
      simp only [isDigitList, List.all_cons, Bool.and_eq_true] at hd
      exact hd.1
    dsimp only
    rw [if_neg (ne_dash_of_digit c hc), if_neg (ne_plus_of_digit c hc),
      if_pos hd]

/-- `int()` on a minus sign followed by digits parses the negated
value. -/
theorem pyIntOfString_neg_digits (l : List Char) (hne : l ≠ [])
    (hd : isDigitList l = true) :
    pyIntOfString (String.mk ('-' :: l)) = some (-(decValue l : Int)) := by
  unfold pyIntOfString
  have hdata : (String.mk ('-' :: l)).data = '-' :: l := rfl
  rw [hdata, stripChars_eq_self ('-' :: l) (by
    intro c hc
    rcases List.mem_cons.mp hc with h | h
    · subst h; decide
    · exact isPySpace_eq_false_of_digit c (by
        simp only [isDigitList, List.all_eq_true] at hd
        exact hd c h))]
  dsimp only
  rw [if_pos rfl, if_neg (by simpa [List.isEmpty_iff] using hne), if_pos hd]

/-- `zfill` on a digit-led string pads in front (a no-op when already
wide enough, since the pad is then empty). -/
theorem zfill_mk_nosign (c : Char) (l : List Char) (w : Nat)
    (hc1 : c ≠ '-') (hc2 : c ≠ '+') :
    zfill (String.mk (c :: l)) w =
      String.mk (List.replicate (w - (c :: l).length) '0' ++ (c :: l)) := by
  unfold zfill
  by_cases hw : w ≤ (String.mk (c :: l)).length
  · rw [if_pos hw]
    have hlen : (String.mk (c :: l)).length = (c :: l).length := rfl
    have hz : w - (c :: l).length = 0 := by omega
    rw [hz, List.replicate_zero, List.nil_append]
  · rw [if_neg hw]
    dsimp only
    rw [if_neg (by
      rintro (h | h)
      · exact hc1 h
      · exact hc2 h)]
    rfl

/-- `zfill` on a minus-led string pads after the sign (a no-op when
already wide enough). -/
theorem zfill_mk_neg (l : List Char) (w : Nat) :
    zfill (String.mk ('-' :: l)) w =
      String.mk ('-' :: (List.replicate (w - ('-' :: l).length) '0' ++ l)) := by
  unfold zfill
  by_cases hw : w ≤ (String.mk ('-' :: l)).length
  · rw [if_pos hw]
    have hlen : (String.mk ('-' :: l)).length = ('-' :: l).length := rfl
    have hz : w - ('-' :: l).length = 0 := by omega
    rw [hz, List.replicate_zero, List.nil_append]
  · rw [if_neg hw]
    dsimp only
    rw [if_pos (Or.inl rfl)]
    rfl

/-- `all` is invariant under `reverse`. -/
theorem isDigitList_reverse (l : List Char) :
    isDigitList l.reverse = isDigitList l := by
  simp [isDigitList, List.all_reverse]

/-- `all` splits over `append`. -/
theorem isDigitList_append (l1 l2 : List Char) :
    isDigitList (l1 ++ l2) = (isDigitList l1 && isDigitList l2) := by
  simp [isDigitList, List.all_append]

/-- Zero padding consists of digits. -/
theorem isDigitList_replicate_zero (k : Nat) :
    isDigitList (List.replicate k '0') = true := by
  simp only [isDigitList, List.all_eq_true]
  intro c hc
  rw [List.eq_of_mem_replicate hc]
  decide

/-- The canonical decimal digits of `n` evaluate to `n`. -/
theorem decValue_canon (n : Nat) : decValue (natDigitsRev n).reverse = n := by
  rw [decValue_eq_valRev_reverse, List.reverse_reverse, valRev_natDigitsRev]

/-- Leading zeros do not change a big-endian value. -/
theorem decValue_pad (k : Nat) (l : List Char) :
    decValue (List.replicate k '0' ++ l) = decValue l := by
  rw [decValue_eq_valRev_reverse, List.reverse_append, List.reverse_replicate,
    valRev_append_zeros, ← decValue_eq_valRev_reverse]

/-- A digit list's value is below `10 ^ length`. -/
theorem decValue_lt (l : List Char) (hd : isDigitList l = true) :
    decValue l < 10 ^ l.length := by
  rw [decValue_eq_valRev_reverse]
  have := valRev_lt l.reverse (by rw [isDigitList_reverse]; exact hd)
  simpa using this

/-- The canonical digits are never the empty list, reversed or not. -/
theorem canon_ne_nil (n : Nat) : (natDigitsRev n).reverse ≠ [] := by
  intro h
  exact natDigitsRev_ne_nil n (List.reverse_eq_nil_iff.mp h)

/-- Canonical digits of numbers below `10 ^ L` fit in `L` places. -/
theorem canon_length_le (v L : Nat) (hv : v < 10 ^ L) (hL : 1 ≤ L) :
    (natDigitsRev v).length ≤ L := by
  by_contra hgt
  push_neg at hgt
  by_cases hv1 : 1 ≤ v
  · have hlow := natDigitsRev_pow_le v hv1
    have hpow : 10 ^ L ≤ 10 ^ ((natDigitsRev v).length - 1) :=
      Nat.pow_le_pow_right (by omega) (by omega)
    omega
  · have hv0 : v = 0 := by omega
    subst hv0
    have h1 : (natDigitsRev 0).length = 1 := by rw [natDigitsRev_unfold]; simp
    omega

/-- Digit lists of equal length with equal value are equal. -/
theorem digit_lists_eq (l1 l2 : List Char) (h1 : isDigitList l1 = true)
    (h2 : isDigitList l2 = true) (hlen : l1.length = l2.length)
    (hval : decValue l1 = decValue l2) : l1 = l2 := by
  have e1 := decValue_eq_valRev_reverse l1
  have e2 := decValue_eq_valRev_reverse l2
  have hrev := valRev_inj l1.reverse l2.reverse
    (by rw [isDigitList_reverse]; exact h1)
    (by rw [isDigitList_reverse]; exact h2)
    (by simp [hlen])
    (by rw [← e1, ← e2, hval])
  have := congrArg List.reverse hrev
  simpa using this

/-- A nonzero leading digit puts the value at or above `10 ^ (len - 1)`. -/
theorem digitVal_pos (c : Char) (hc : isAsciiDigit c = true) (hne : c ≠ '0') :
    1 ≤ digitVal c := by
  simp only [isAsciiDigit, Bool.and_eq_true, decide_eq_true_eq] at hc
  have h48 : c.toNat ≠ 48 := fun h => hne (char_toNat_inj c '0' (by rw [h]; rfl))
  unfold digitVal
  omega

/-- Lower bound for a digit list with a nonzero head. -/
theorem decValue_lower (d0 : Char) (rest : List Char)
    (h0 : isAsciiDigit d0 = true) (hne : d0 ≠ '0') :
    10 ^ rest.length ≤ decValue (d0 :: rest) := by
  rw [decValue_eq_valRev_reverse, List.reverse_cons, valRev_append]
  have h1 : 1 ≤ digitVal d0 := digitVal_pos d0 h0 hne
  have h2 : valRev [d0] = digitVal d0 := by simp [valRev]
  rw [h2, List.length_reverse]
  have h3 : 10 ^ rest.length * 1 ≤ 10 ^ rest.length * digitVal d0 :=
    Nat.mul_le_mul_left _ h1
  omega

/-- The int branch of `_normalize_cik` round-trips: parsing a zero-filled
`str(int)` recovers the integer. -/
theorem parse_zfill_pyStrInt (n : Int) :
    pyIntOfString (zfill (pyStrInt n) 10) = some n := by
  by_cases hn : n < 0
  · have hstr : pyStrInt n = String.mk ('-' :: (natDigitsRev n.natAbs).reverse) := by
      simp [pyStrInt, hn]
    rw [hstr, zfill_mk_neg, pyIntOfString_neg_digits]
    · rw [decValue_pad, decValue_canon]
      congr 1
      omega
    · intro h
      exact canon_ne_nil n.natAbs (List.append_eq_nil.mp h).2
    · rw [isDigitList_append, isDigitList_replicate_zero, isDigitList_reverse,
        isDigitList_natDigitsRev]
      rfl
  · have hstr : pyStrInt n = String.mk (natDigitsRev n.toNat).reverse := by
      simp [pyStrInt, hn]
    obtain ⟨c, rest, hcr⟩ : ∃ c rest, (natDigitsRev n.toNat).reverse = c :: rest := by
      cases hx : (natDigitsRev n.toNat).reverse with
      | nil => exact absurd hx (canon_ne_nil _)
      | cons c rest => exact ⟨c, rest, rfl⟩
    have hdig : isDigitList (c :: rest) = true := by
      rw [← hcr, isDigitList_reverse]
      exact isDigitList_natDigitsRev _
    have hc : isAsciiDigit c = true := by
      simp only [isDigitList, List.all_cons, Bool.and_eq_true] at hdig
      exact hdig.1
    rw [hstr, hcr,
      zfill_mk_nosign c rest 10 (ne_dash_of_digit c hc) (ne_plus_of_digit c hc),
      pyIntOfString_digits]
    · rw [decValue_pad, ← hcr, decValue_canon]
      congr 1
      omega
    · simp
    · rw [isDigitList_append, isDigitList_replicate_zero, hdig]
      rfl

/-- Outputs of `_normalize_cik`'s int branch are fixed points of the
whole normalization. -/
theorem normalizeCikStr_intForm (n : Int) :
    normalizeCikStr (zfill (pyStrInt n) 10) = some (zfill (pyStrInt n) 10) := by
  unfold normalizeCikStr
  rw [parse_zfill_pyStrInt]

/-- Filtering to digits yields digits. -/
theorem isDigitList_filter (l : List Char) :
    isDigitList (l.filter isAsciiDigit) = true := by
  simp only [isDigitList, List.all_eq_true]
  intro c hc
  exact (List.mem_filter.mp hc).2

/-- Outputs of `_normalize_cik`'s digit-collecting branch are fixed
points of the whole normalization whenever they are at most ten
characters long or carry no leading zero. -/
theorem normalizeCikStr_digitsForm (digits : List Char) (hne : digits ≠ [])
    (hd : isDigitList digits = true)
    (hguard : (zfill (String.mk digits) 10).length ≤ 10 ∨
      (zfill (String.mk digits) 10).data.head? ≠ some '0') :
    normalizeCikStr (zfill (String.mk digits) 10) =
      some (zfill (String.mk digits) 10) := by
  obtain ⟨d0, rest, rfl⟩ : ∃ d0 rest, digits = d0 :: rest := by
    cases digits with
    | nil => exact absurd rfl hne
    | cons d0 rest => exact ⟨d0, rest, rfl⟩
  have h0 : isAsciiDigit d0 = true := by
    simp only [isDigitList, List.all_cons, Bool.and_eq_true] at hd
    exact hd.1
  have hz := zfill_mk_nosign d0 rest 10 (ne_dash_of_digit d0 h0)
    (ne_plus_of_digit d0 h0)
  rw [hz] at hguard ⊢
  have hpdig : isDigitList
      (List.replicate (10 - (d0 :: rest).length) '0' ++ (d0 :: rest)) = true := by
    rw [isDigitList_append, isDigitList_replicate_zero, hd]
    rfl
  unfold normalizeCikStr
  rw [pyIntOfString_digits _ (by simp) hpdig]
  dsimp only
  rw [decValue_pad]
  have hvnn : ¬((decValue (d0 :: rest) : Int) < 0) := by omega
  have hstr : pyStrInt ((decValue (d0 :: rest) : Int)) =
      String.mk (natDigitsRev (decValue (d0 :: rest))).reverse := by
    unfold pyStrInt
    rw [if_neg hvnn]
    simp
  rw [hstr]
  obtain ⟨c0, r0, hcr⟩ :
      ∃ c0 r0, (natDigitsRev (decValue (d0 :: rest))).reverse = c0 :: r0 := by
    cases hx : (natDigitsRev (decValue (d0 :: rest))).reverse with
    | nil => exact absurd hx (canon_ne_nil _)
    | cons c0 r0 => exact ⟨c0, r0, rfl⟩
  have hcdig : isDigitList (c0 :: r0) = true := by
    rw [← hcr, isDigitList_reverse]
    exact isDigitList_natDigitsRev _
  have hc0 : isAsciiDigit c0 = true := by
    simp only [isDigitList, List.all_cons, Bool.and_eq_true] at hcdig
    exact hcdig.1
  rw [hcr, zfill_mk_nosign c0 r0 10 (ne_dash_of_digit c0 hc0)
    (ne_plus_of_digit c0 hc0)]
  have hlenc : (c0 :: r0).length =
      (natDigitsRev (decValue (d0 :: rest))).length := by
    have := congrArg List.length hcr
    simpa using this.symm
  have hvlt : decValue (d0 :: rest) < 10 ^ (d0 :: rest).length :=
    decValue_lt _ hd
  have hlen_eq : (10 - (c0 :: r0).length) + (c0 :: r0).length =
      (10 - (d0 :: rest).length) + (d0 :: rest).length := by
    by_cases hl10 : (d0 :: rest).length ≤ 10
    · have hc10 : (natDigitsRev (decValue (d0 :: rest))).length ≤ 10 :=
        canon_length_le _ 10
          (lt_of_lt_of_le hvlt (Nat.pow_le_pow_right (by omega) hl10))
          (by omega)
      omega
    · have hpad0 : 10 - (d0 :: rest).length = 0 := by omega
      have hd0ne : d0 ≠ '0' := by
        rcases hguard with hg | hg
        · exfalso
          have hL : (String.mk (List.replicate (10 - (d0 :: rest).length) '0' ++
              (d0 :: rest))).length =
              (10 - (d0 :: rest).length) + (d0 :: rest).length := by
            show (List.replicate (10 - (d0 :: rest).length) '0' ++
              (d0 :: rest)).length = _
            simp
          omega
        · intro h00
          apply hg
          subst h00
          rw [hpad0]
          rfl
      have hrlen : (d0 :: rest).length - 1 = rest.length := by simp
      have hlow : 10 ^ ((d0 :: rest).length - 1) ≤ decValue (d0 :: rest) := by
        rw [hrlen]
        exact decValue_lower d0 rest h0 hd0ne
      have hclow := natDigitsRev_lt_pow (decValue (d0 :: rest))
      have hcle : (natDigitsRev (decValue (d0 :: rest))).length ≤
          (d0 :: rest).length :=
        canon_length_le _ _ hvlt (by simp)
      have hge : (d0 :: rest).length ≤
          (natDigitsRev (decValue (d0 :: rest))).length := by
        by_contra hlt
        push_neg at hlt
        have : 10 ^ (natDigitsRev (decValue (d0 :: rest))).length ≤
            10 ^ ((d0 :: rest).length - 1) :=
          Nat.pow_le_pow_right (by omega) (by omega)
        omega
      omega
  congr 1
  refine congrArg String.mk (digit_lists_eq _ _ ?_ ?_ ?_ ?_)
  · rw [isDigitList_append, isDigitList_replicate_zero, hcdig]
    rfl
  · exact hpdig
  · simp only [List.length_append, List.length_replicate]
    exact hlen_eq
  · rw [decValue_pad, decValue_pad, ← hcr, decValue_canon]

/-- C5 (counterexample).  `_normalize_cik` is not idempotent as claimed:
on `"CIK00000000001"` the digit-collecting branch keeps the eleven-digit
string `"00000000001"` (zfill pads only up to ten), but re-normalizing
that output parses it as the integer 1 and returns `"0000000001"`. -/
theorem c5_normalize_cik_not_idempotent :
    normalizeCik (.pyStr "CIK00000000001") = some "00000000001"
    ∧ normalizeCik (.pyStr "00000000001") = some "0000000001"
    ∧ ("00000000001" : String) ≠ "0000000001" := by
  refine ⟨by decide, by decide, by decide⟩

/-- C5 (amended).  `_normalize_cik` is idempotent on every output that is
at most ten characters long or does not start with `'0'` — which covers
every genuine CIK — and numeric-equivalent inputs (`"1"`,
`"0000000001"`, the int `1`) normalize to the identical ten-digit
zero-padded string. -/
theorem c5_normalize_cik_idempotent_amended :
    (∀ (x : PyVal) (s : String), normalizeCik x = some s →
      s.length ≤ 10 ∨ s.data.head? ≠ some '0' →
      normalizeCik (.pyStr s) = some s)
    ∧ normalizeCik (.pyStr "1") = some "0000000001"
    ∧ normalizeCik (.pyStr "0000000001") = some "0000000001"
    ∧ normalizeCik (.pyInt 1) = some "0000000001" := by
  refine ⟨?_, by decide, by decide, by decide⟩
  intro x s hx hguard
  cases x with
  | pyNone => cases hx
  | pyInt n =>
    have hs : zfill (pyStrInt n) 10 = s := by
      simpa [normalizeCik] using hx
    subst hs
    exact normalizeCikStr_intForm n
  | pyStr raw =>
    have hx' : normalizeCikStr raw = some s := hx
    unfold normalizeCikStr at hx'
    cases hp : pyIntOfString raw with
    | some n =>
      rw [hp] at hx'
      dsimp only at hx'
      injection hx' with hx'
      subst hx'
      exact normalizeCikStr_intForm n
    | none =>
      rw [hp] at hx'
      dsimp only at hx'
      by_cases hempty : (stripChars raw.data).isEmpty = true
      · rw [if_pos hempty] at hx'
        cases hx'
      · rw [if_neg hempty] at hx'
        by_cases hde : ((if (stripChars raw.data).take 3 = ['C', 'I', 'K']
            then (stripChars raw.data).drop 3
            else stripChars raw.data).filter isAsciiDigit).isEmpty = true
        · rw [if_pos hde] at hx'
          cases hx'
        · rw [if_neg hde] at hx'
          injection hx' with hx'
          subst hx'
          exact normalizeCikStr_digitsForm _
            (by simpa [List.isEmpty_iff] using hde)
            (isDigitList_filter _) hguard

/-- Witness for the amended C5: the normalized form of `"CIK7"` is ten
characters, so re-normalizing it is the identity. -/
theorem c5_normalize_cik_idempotent_amended_witness :
    normalizeCik (.pyStr "0000000007") = some "0000000007" :=
  c5_normalize_cik_idempotent_amended.1 (.pyStr "CIK7") "0000000007"
    (by decide) (Or.inl (by decide))

end Sec
